import Mathlib

/-!
Verification development for the core of rust-simplicity: a shallow
embedding of `src/types.rs` (union-find type inference and finalization)
and `src/program.rs` (program assembly, CMR and resource-bound
computation), together with theorems about the embedded code.

The `Rc<RefCell<UnificationVar>>` forest of the source is embedded as an
arena of unification variables identified by `Nat` indices; `Rc` pointer
sharing becomes index sharing, `Rc::ptr_eq` becomes index equality, and
interior mutation becomes explicit state passing.  Rust panics
(`unreachable!`, `unimplemented!`, out-of-bounds slice indexing) are
modelled as distinguished error values, kept separate from the error
values the source returns by `Result`.  Recursive loops are given
explicit fuel; exhausting the fuel yields the distinguished `OutOfFuel`
error, so every theorem quantifies over (or supplies) concrete fuel.
-/

set_option maxHeartbeats 4000000

deriving instance DecidableEq for Except

namespace Simplicity

mutual

/-- Finalized type shape, mirroring `FinalTypeInner` in src/types.rs:
a unit, or a sum/product of two finalized types. -/
inductive FinalTypeInner : Type where
  | unit : FinalTypeInner
  | sum : FinalType → FinalType → FinalTypeInner
  | product : FinalType → FinalType → FinalTypeInner
  deriving Repr, DecidableEq

/-- Finalized type with its cached bit width, mirroring `FinalType` in
src/types.rs (`ty` field plus `bit_width` field). -/
inductive FinalType : Type where
  | mk : FinalTypeInner → Nat → FinalType
  deriving Repr, DecidableEq

end

/-- The `ty` field of a `FinalType`. -/
def FinalType.ty : FinalType → FinalTypeInner
  | .mk t _ => t

/-- The `bit_width` field of a `FinalType` (also the source's
`bit_width()` accessor). -/
def FinalType.bit_width : FinalType → Nat
  | .mk _ w => w

/-- `bit_width` is a `usize` in the source: all arithmetic on widths
and bounds wraps modulo `2 ^ 64` (release-build two's-complement
wrapping of a 64-bit `usize`). -/
def usizeMod : Nat := 2 ^ 64

/-- The inference-time type algebra, mirroring `Type` in src/types.rs:
`Unit`, or a sum/product whose children are unification variables
(arena indices standing for the source's `RcVar`s). -/
inductive Ty : Type where
  | unit : Ty
  | sum : Nat → Nat → Ty
  | product : Nat → Nat → Ty
deriving Repr, DecidableEq

/-- State of one unification variable, mirroring `Variable` in
src/types.rs. -/
inductive Variable : Type where
  | Free : Variable
  | Bound : Ty → Bool → Variable
  | EqualTo : Nat → Variable
  | Finalized : FinalType → Variable
deriving Repr, DecidableEq

/-- A unification variable with its union-find rank, mirroring
`UnificationVar` in src/types.rs. -/
structure UnificationVar : Type where
  var : Variable
  rank : Nat
deriving Repr, DecidableEq

/-- The arena holding every allocated unification variable; an index
into it plays the role of an `RcVar`. -/
abbrev St : Type := Array UnificationVar

/-- Errors.  The first group mirrors the variants of the source's
`Error` enum that the embedded code can produce by value; the `Panic*`
group models Rust panics (`unreachable!` in `bind`, `unreachable!` in
`unify`/`find_root` relatives, `unreachable!` in `FinalType::from_var`,
out-of-bounds indexing, and `unimplemented!`); `OutOfFuel` models
non-termination of the fuelled recursions. -/
inductive Err : Type where
  | EndOfStream : Err
  | TypeCheck : Err
  | OccursCheck : Err
  | UnsupportedFail : Err
  | OutOfFuel : Err
  | PanicIndex : Err
  | PanicBind : Err
  | PanicUnify : Err
  | PanicFromVar : Err
  | PanicUnimplemented : Err
deriving Repr, DecidableEq

/-- Write entry `i` of the arena (no-op when out of bounds; reachable
states never write out of bounds). -/
def setVar (s : St) (i : Nat) (v : UnificationVar) : St :=
  if h : i < s.size then s.set ⟨i, h⟩ v else s

/-- `UnificationVar::free()`. -/
def UnificationVar.free : UnificationVar := ⟨.Free, 0⟩

/-- `UnificationVar::concrete(ty)`. -/
def UnificationVar.concrete (ty : Ty) : UnificationVar := ⟨.Bound ty false, 0⟩

/-- Allocate a fresh free variable (`Rc::new(RefCell::new(free()))`),
returning its index. -/
def newVar (s : St) : Nat × St := (s.size, s.push .free)

/-- `Type::into_rcvar`: allocate a variable bound to a concrete shape. -/
def into_rcvar (ty : Ty) (s : St) : Nat × St :=
  (s.size, s.push (.concrete ty))

/-- `find_root` from src/types.rs: follow `EqualTo` parent pointers with
path halving (a node whose parent is itself an `EqualTo` is repointed at
its grandparent), returning the representative. -/
def find_root (fuel : Nat) (node : Nat) (s : St) : Except Err (Nat × St) :=
  match fuel with
  | 0 => .error .OutOfFuel
  | fuel + 1 =>
    match s[node]? with
    | none => .error .PanicIndex
    | some u =>
      match u.var with
      | .EqualTo parent =>
        match s[parent]? with
        | none => .error .PanicIndex
        | some pu =>
          match pu.var with
          | .EqualTo grandparent =>
            find_root fuel parent
              (setVar s node ⟨.EqualTo grandparent, u.rank⟩)
          | _ => find_root fuel parent s
      | _ => .ok (node, s)

/-- The two mutually recursive union-find operations of src/types.rs,
`bind` and `unify`, merged into one fuel-structural function so the
kernel can reduce them (mutual well-founded definitions do not reduce).
`bind`/`unify` below are thin wrappers selecting the operation. -/
inductive UnifyOp : Type where
  | bindOp : Nat → Ty → UnifyOp
  | unifyOp : Nat → Nat → UnifyOp
  | linkOp : Nat → Nat → UnifyOp
deriving Repr, DecidableEq

/-- Body shared by `bind` and `unify` (see those wrappers for the
correspondence with src/types.rs).

For `bindOp rcvar ty` (`bind` in src/types.rs): constrain a variable
(expected to be the representative of its class) to a non-variable
shape; a `Free` variable becomes `Bound(ty, false)`; compatible `Bound`
constructors recursively unify children; incompatible ones fail with
`TypeCheck`; the source's two `unreachable!` arms (`EqualTo`, i.e. not a
representative, or `Finalized`) are modelled as the `PanicBind` error.

For `unifyOp alpha beta` (`unify` in src/types.rs): find both
representatives, return if they coincide, otherwise union by rank
(swapping so the higher-ranked root absorbs the other, bumping the rank
on ties), then continue as `linkOp` — the tail of the source's `unify`
after the rank adjustment: repoint the absorbed root `beta` at the
surviving root `alpha` (the source's `mem::replace` of `beta`'s state
with `EqualTo(alpha)`) and re-`bind` the absorbed root's previous
constraint, if any, onto the survivor.  The source's `unreachable!` arms
are `PanicUnify`. -/
def unifyStep (fuel : Nat) (op : UnifyOp) (s : St) :
    Except Err (Unit × St) :=
  match fuel with
  | 0 => .error .OutOfFuel
  | fuel + 1 =>
    match op with
    | .bindOp rcvar ty =>
      match s[rcvar]? with
      | none => .error .PanicIndex
      | some u =>
        match u.var with
        | .Free => .ok ((), setVar s rcvar ⟨.Bound ty false, u.rank⟩)
        | .EqualTo _ => .error .PanicBind
        | .Finalized _ => .error .PanicBind
        | .Bound self_ty _ =>
          match self_ty, ty with
          | .unit, .unit => .ok ((), s)
          | .sum al1 al2, .sum be1 be2 =>
            match unifyStep fuel (.unifyOp al1 be1) s with
            | .error e => .error e
            | .ok (_, s1) => unifyStep fuel (.unifyOp al2 be2) s1
          | .product al1 al2, .product be1 be2 =>
            match unifyStep fuel (.unifyOp al1 be1) s with
            | .error e => .error e
            | .ok (_, s1) => unifyStep fuel (.unifyOp al2 be2) s1
          | _, _ => .error .TypeCheck
    | .unifyOp alphaIn betaIn =>
      match find_root fuel alphaIn s with
      | .error e => .error e
      | .ok (alpha0, s1) =>
        match find_root fuel betaIn s1 with
        | .error e => .error e
        | .ok (beta0, s2) =>
          if alpha0 = beta0 then .ok ((), s2)
          else
            match s2[alpha0]?, s2[beta0]? with
            | some ua, some ub =>
              if ua.rank < ub.rank then
                unifyStep fuel (.linkOp beta0 alpha0) s2
              else if ua.rank = ub.rank then
                unifyStep fuel (.linkOp alpha0 beta0)
                  (setVar s2 alpha0 ⟨ua.var, ua.rank + 1⟩)
              else unifyStep fuel (.linkOp alpha0 beta0) s2
            | _, _ => .error .PanicIndex
    | .linkOp alpha beta =>
      match s[beta]? with
      | none => .error .PanicIndex
      | some ub2 =>
        match ub2.var with
        | .Free => .ok ((), setVar s beta ⟨.EqualTo alpha, ub2.rank⟩)
        | .Bound be_ty _ =>
          unifyStep fuel (.bindOp alpha be_ty)
            (setVar s beta ⟨.EqualTo alpha, ub2.rank⟩)
        | .EqualTo _ => .error .PanicUnify
        | .Finalized _ => .error .PanicUnify

/-- `bind` from src/types.rs (see `unifyStep`). -/
def bind (fuel : Nat) (rcvar : Nat) (ty : Ty) (s : St) :
    Except Err (Unit × St) :=
  unifyStep fuel (.bindOp rcvar ty) s

/-- `unify` from src/types.rs (see `unifyStep`). -/
def unify (fuel : Nat) (alphaIn betaIn : Nat) (s : St) :
    Except Err (Unit × St) :=
  unifyStep fuel (.unifyOp alphaIn betaIn) s

/-- The child-resolution step inside `FinalType::from_var` (the
`match sub_borr.var` blocks): a `Free` child becomes `Unit` without
being finalized in place, a `Bound` child takes the recursive
`from_var` result (passed in as `recRes`), an `EqualTo` child is the
source's `unreachable!`, and a `Finalized` child returns its stored
type. -/
def childResolve (recRes : Except Err (FinalType × St)) (w : Variable)
    (sB : St) : Except Err (FinalType × St) :=
  match w with
  | .Free => .ok (.mk .unit 0, sB)
  | .Bound _ _ => recRes
  | .EqualTo _ => .error .PanicFromVar
  | .Finalized f1 => .ok (f1, sB)

/-- `FinalType::from_var` from src/types.rs: find the representative;
a `Finalized` variable returns its stored type; a `Free` variable
finalizes to `Unit`; a `Bound` variable whose occurs flag is already set
fails with `OccursCheck`, otherwise the flag is set and, for a `Unit`
shape, the unit type is stored at once; for a `Sum`/`Product` shape both
children are rooted (in source order: `find_root(sub1)` then
`find_root(sub2)` before either is resolved), each is resolved (a `Free`
child becomes `Unit` without being finalized in place, a `Bound` child
recurses, a `Finalized` child returns its stored type), and the
immutable type is built with its bit width (`0` for unit, `1 + max` for
sums, `+` for products) and stored back as `Finalized`. -/
def from_var (fuel : Nat) (varIn : Nat) (s : St) :
    Except Err (FinalType × St) :=
  match fuel with
  | 0 => .error .OutOfFuel
  | fuel + 1 =>
    match find_root fuel varIn s with
    | .error e => .error e
    | .ok (var, s1) =>
      match s1[var]? with
      | none => .error .PanicIndex
      | some u =>
        match u.var with
        | .Finalized done => .ok (done, s1)
        | .EqualTo _ => .error .PanicFromVar
        | .Free =>
          .ok (FinalType.mk .unit 0,
            setVar s1 var ⟨.Finalized (FinalType.mk .unit 0), u.rank⟩)
        | .Bound existing_type occurs_check =>
          match occurs_check with
          | true => .error .OccursCheck
          | false =>
            match existing_type with
            | .unit =>
              .ok (FinalType.mk .unit 0,
                setVar (setVar s1 var ⟨.Bound existing_type true, u.rank⟩)
                  var ⟨.Finalized (FinalType.mk .unit 0), u.rank⟩)
            | .sum sub1 sub2 =>
              match find_root fuel sub1
                  (setVar s1 var ⟨.Bound existing_type true, u.rank⟩) with
              | .error e => .error e
              | .ok (r1, sA) =>
                match find_root fuel sub2 sA with
                | .error e => .error e
                | .ok (r2, sB) =>
                  match sB[r1]? with
                  | none => .error .PanicIndex
                  | some u1 =>
                    match childResolve (from_var fuel r1 sB) u1.var sB with
                    | .error e => .error e
                    | .ok (final1, sC) =>
                      match sC[r2]? with
                      | none => .error .PanicIndex
                      | some u2 =>
                        match childResolve (from_var fuel r2 sC) u2.var sC with
                        | .error e => .error e
                        | .ok (final2, sD) =>
                          match sD[var]? with
                          | none => .error .PanicIndex
                          | some uv =>
                            .ok (FinalType.mk (.sum final1 final2)
                                ((1 + max final1.bit_width
                                  final2.bit_width) % usizeMod),
                              setVar sD var ⟨.Finalized
                                (FinalType.mk (.sum final1 final2)
                                  ((1 + max final1.bit_width
                                    final2.bit_width) % usizeMod)),
                                  uv.rank⟩)
            | .product sub1 sub2 =>
              match find_root fuel sub1
                  (setVar s1 var ⟨.Bound existing_type true, u.rank⟩) with
              | .error e => .error e
              | .ok (r1, sA) =>
                match find_root fuel sub2 sA with
                | .error e => .error e
                | .ok (r2, sB) =>
                  match sB[r1]? with
                  | none => .error .PanicIndex
                  | some u1 =>
                    match childResolve (from_var fuel r1 sB) u1.var sB with
                    | .error e => .error e
                    | .ok (final1, sC) =>
                      match sC[r2]? with
                      | none => .error .PanicIndex
                      | some u2 =>
                        match childResolve (from_var fuel r2 sC) u2.var sC with
                        | .error e => .error e
                        | .ok (final2, sD) =>
                          match sD[var]? with
                          | none => .error .PanicIndex
                          | some uv =>
                            .ok (FinalType.mk (.product final1 final2)
                                ((final1.bit_width +
                                  final2.bit_width) % usizeMod),
                              setVar sD var ⟨.Finalized
                                (FinalType.mk (.product final1 final2)
                                  ((final1.bit_width +
                                    final2.bit_width) % usizeMod)),
                                  uv.rank⟩)

/-- `TypeName` from src/extension/mod.rs: the closed set of type names
an extension or jet leaf may declare for its source and target. -/
inductive TypeName : Type where
  | One | Word32 | SWord32 | TwoTimesWord32 | Word64 | SWord64
  | Word64TimesTwo | Word128 | Word256 | SWord256 | Word256Word32
  | SWord256Word32 | Word256Word512
deriving Repr, DecidableEq

/-- An extension/jet leaf, embedded by the data the core consumes from
the `extension::Node` trait: its declared source/target type names and
its CMR (a 256-bit value, embedded as a `Nat`). -/
structure ExtNode : Type where
  source_type : TypeName
  target_type : TypeName
  cmrValue : Nat
deriving Repr, DecidableEq

/-- The combinator term, mirroring `Node<Witness, Ext>` in src/types.rs
(also `Term<Witness, Ext>` in src/program.rs, which has the same
variants).  `W` is the witness payload type: `Unit` before the witness
block is read, `Value` after.  256-bit hashes are embedded as `Nat`. -/
inductive Term (W : Type) : Type where
  | Iden : Term W
  | Unit : Term W
  | InjL : Nat → Term W
  | InjR : Nat → Term W
  | Take : Nat → Term W
  | Drop : Nat → Term W
  | Comp : Nat → Nat → Term W
  | Case : Nat → Nat → Term W
  | Pair : Nat → Nat → Term W
  | Disconnect : Nat → Nat → Term W
  | Witness : W → Term W
  | Hidden : Nat → Term W
  | Fail : Nat → Nat → Term W
  | Ext : ExtNode → Term W
  | Jet : ExtNode → Term W
deriving Repr, DecidableEq

/-- `TypedNode` from src/types.rs: a term with its finalized source and
target types. -/
structure TypedNode (W : Type) : Type where
  node : Term W
  source_ty : FinalType
  target_ty : FinalType
deriving Repr, DecidableEq

/-- `UnificationArrow` from src/types.rs: the pair of unification
variables (arena indices) for one node's source and target. -/
structure UnificationArrow : Type where
  source : Nat
  target : Nat
deriving Repr, DecidableEq

/-- The arena after `type_check`'s prelude has allocated the shared
powers-of-two skeletons, in source order:
index 0 = `two_0` (unit), 1 = `two_1`, 2 = `two_2`, 3 = `two_4`,
4 = `two_8`, 5 = `two_16`, 6 = `two_32`, 7 = `two_64`, 8 = `two_128`,
9 = `two_256`, 10 = `two_256_32`, 11 = `two_512`.  Each is a
`UnificationVar::concrete` of the corresponding shape. -/
def initState : St := #[
  .concrete .unit,
  .concrete (.sum 0 0),
  .concrete (.product 1 1),
  .concrete (.product 2 2),
  .concrete (.product 3 3),
  .concrete (.product 4 4),
  .concrete (.product 5 5),
  .concrete (.product 6 6),
  .concrete (.product 7 7),
  .concrete (.product 8 8),
  .concrete (.product 9 6),
  .concrete (.product 9 9)
]

/-- The `type_from_name` closure in `type_check`: map a `TypeName` to a
shape over the shared skeleton variables. -/
def type_from_name : TypeName → Ty
  | .One => .unit
  | .Word32 => .product 5 5
  | .SWord32 => .sum 0 6
  | .TwoTimesWord32 => .product 1 6
  | .Word64 => .product 6 6
  | .SWord64 => .sum 0 7
  | .Word64TimesTwo => .product 7 1
  | .Word128 => .product 7 7
  | .Word256 => .product 8 8
  | .SWord256 => .sum 0 9
  | .Word256Word32 => .product 9 6
  | .SWord256Word32 => .sum 0 10
  | .Word256Word512 => .product 9 11

/-- One child branch of the `Case` arm of `type_check`'s first loop
(src/types.rs): consult `program[i]` first; a `Hidden` child imposes no
constraint and `rcs[i]` is never read; otherwise look up the child's
arrow `rcs[i]` (panicking when out of range), bind the rooted child
source to `Product(childVar, var3)` and unify the `Case`'s target with
the child's target. -/
def caseBranch {W : Type} (fuel : Nat) (program : Array (Term W))
    (rcs : Array UnificationArrow) (var3 tgtIdx childVar : Nat)
    (childIdx : Nat) (st : St) : Except Err (Unit × St) :=
  match program[childIdx]? with
  | none => .error .PanicIndex
  | some (Term.Hidden _) => .ok ((), st)
  | some _ =>
    match rcs[childIdx]? with
    | none => .error .PanicIndex
    | some rc =>
      match find_root fuel rc.source st with
      | .error e => .error e
      | .ok (root, st1) =>
        match bind fuel root (.product childVar var3) st1 with
        | .error e => .error e
        | .ok (_, st2) => unify fuel tgtIdx rc.target st2

/-- One iteration of `type_check`'s first loop in src/types.rs: allocate
the node's source/target variables, then impose the constraints for its
term.  `rcs` holds the arrows of the previously processed nodes, and the
term's child payloads index directly into it (`rcs[i]`), panicking when
out of range; `program` is the full input vector, consulted by the
`Case` arm to detect `Hidden` children (`program[i]`). -/
def addConstraints {W : Type} (fuel : Nat) (program : Array (Term W))
    (rcs : Array UnificationArrow) (program_node : Term W) (s : St) :
    Except Err (UnificationArrow × St) :=
  let (src, s) := newVar s
  let (tgt, s) := newVar s
  let node : UnificationArrow := ⟨src, tgt⟩
  let arrS : Nat → Except Err UnificationArrow := fun i =>
    match rcs[i]? with
    | none => .error .PanicIndex
    | some a => .ok a
  let finish : Except Err (Unit × St) → Except Err (UnificationArrow × St) :=
    fun r =>
      match r with
      | .error e => .error e
      | .ok (_, s') => .ok (node, s')
  match program_node with
  | .Iden => finish (unify fuel node.source node.target s)
  | .Unit => finish (bind fuel node.target .unit s)
  | .InjL i =>
    match arrS i with
    | .error e => .error e
    | .ok rci =>
      match unify fuel node.source rci.source s with
      | .error e => .error e
      | .ok (_, s1) =>
        let (fresh, s2) := newVar s1
        finish (bind fuel node.target (.sum rci.target fresh) s2)
  | .InjR i =>
    match arrS i with
    | .error e => .error e
    | .ok rci =>
      match unify fuel node.source rci.source s with
      | .error e => .error e
      | .ok (_, s1) =>
        let (fresh, s2) := newVar s1
        finish (bind fuel node.target (.sum fresh rci.target) s2)
  | .Take i =>
    match arrS i with
    | .error e => .error e
    | .ok rci =>
      match unify fuel node.target rci.target s with
      | .error e => .error e
      | .ok (_, s1) =>
        let (fresh, s2) := newVar s1
        finish (bind fuel node.source (.product rci.source fresh) s2)
  | .Drop i =>
    match arrS i with
    | .error e => .error e
    | .ok rci =>
      match unify fuel node.target rci.target s with
      | .error e => .error e
      | .ok (_, s1) =>
        let (fresh, s2) := newVar s1
        finish (bind fuel node.source (.product fresh rci.source) s2)
  | .Comp i j =>
    match arrS i, arrS j with
    | .ok rci, .ok rcj =>
      match unify fuel node.source rci.source s with
      | .error e => .error e
      | .ok (_, s1) =>
        match unify fuel rci.target rcj.source s1 with
        | .error e => .error e
        | .ok (_, s2) => finish (unify fuel node.target rcj.target s2)
    | .error e, _ => .error e
    | _, .error e => .error e
  | .Case i j =>
    let (var1, s1) := newVar s
    let (var2, s2) := newVar s1
    let (var3, s3) := newVar s2
    let (sum12_var, s4) := newVar s3
    match bind fuel sum12_var (.sum var1 var2) s4 with
    | .error e => .error e
    | .ok (_, s5) =>
      match bind fuel node.source (.product sum12_var var3) s5 with
      | .error e => .error e
      | .ok (_, s6) =>
        match caseBranch fuel program rcs var3 node.target var1 i s6 with
        | .error e => .error e
        | .ok (_, s7) =>
          finish (caseBranch fuel program rcs var3 node.target var2 j s7)
  | .Pair i j =>
    match arrS i, arrS j with
    | .ok rci, .ok rcj =>
      match unify fuel node.source rci.source s with
      | .error e => .error e
      | .ok (_, s1) =>
        match unify fuel node.source rcj.source s1 with
        | .error e => .error e
        | .ok (_, s2) =>
          finish (bind fuel node.target (.product rci.target rcj.target) s2)
    | .error e, _ => .error e
    | _, .error e => .error e
  | .Disconnect i j =>
    match arrS i, arrS j with
    | .ok rci, .ok rcj =>
      let (var_a, s1) := newVar s
      let (var_b, s2) := newVar s1
      let (var_c, s3) := newVar s2
      let (var_d, s4) := newVar s3
      let (s_source, s5) := into_rcvar (.product 9 var_a) s4
      let (s_target, s6) := into_rcvar (.product var_b var_c) s5
      match unify fuel rci.source s_source s6 with
      | .error e => .error e
      | .ok (_, s7) =>
        match unify fuel rci.target s_target s7 with
        | .error e => .error e
        | .ok (_, s8) =>
          let (node_target, s9) := into_rcvar (.product var_b var_d) s8
          match unify fuel node.source var_a s9 with
          | .error e => .error e
          | .ok (_, s10) =>
            match unify fuel node.target node_target s10 with
            | .error e => .error e
            | .ok (_, s11) =>
              match unify fuel rcj.source var_c s11 with
              | .error e => .error e
              | .ok (_, s12) => finish (unify fuel rcj.target var_d s12)
    | .error e, _ => .error e
    | _, .error e => .error e
  | .Witness _ => .ok (node, s)
  | .Hidden _ => .ok (node, s)
  | .Ext bn =>
    match bind fuel node.source (type_from_name bn.source_type) s with
    | .error e => .error e
    | .ok (_, s1) =>
      finish (bind fuel node.target (type_from_name bn.target_type) s1)
  | .Jet jt =>
    match bind fuel node.source (type_from_name jt.source_type) s with
    | .error e => .error e
    | .ok (_, s1) =>
      finish (bind fuel node.target (type_from_name jt.target_type) s1)
  | .Fail _ _ => .error .PanicUnimplemented

/-- `type_check`'s first loop: process each node in order (the list
argument is the still-unprocessed suffix of the program), accumulating
the arrows. -/
def constraintLoop {W : Type} (fuel : Nat) (program : Array (Term W)) :
    List (Term W) → Array UnificationArrow → St →
    Except Err (Array UnificationArrow × St)
  | [], rcs, s => .ok (rcs, s)
  | t :: rest, rcs, s =>
    match addConstraints fuel program rcs t s with
    | .error e => .error e
    | .ok (arrow, s') => constraintLoop fuel program rest (rcs.push arrow) s'

/-- `type_check`'s second loop: finalize every node's source and target
(in that order, nodes in program order) into `TypedNode`s; `idx` is the
position of the list head within the program. -/
def finalizeLoop {W : Type} (fuel : Nat) (rcs : Array UnificationArrow) :
    List (Term W) → Nat → Array (TypedNode W) → St →
    Except Err (Array (TypedNode W) × St)
  | [], _, finals, s => .ok (finals, s)
  | t :: rest, idx, finals, s =>
    match rcs[idx]? with
    | none => .error .PanicIndex
    | some arrow =>
      match from_var fuel arrow.source s with
      | .error e => .error e
      | .ok (src_ty, s1) =>
        match from_var fuel arrow.target s1 with
        | .error e => .error e
        | .ok (tgt_ty, s2) =>
          finalizeLoop fuel rcs rest (idx + 1)
            (finals.push ⟨t, src_ty, tgt_ty⟩) s2

/-- `type_check` from src/types.rs: empty programs succeed immediately;
otherwise build the shared skeletons, run the constraint loop, then
finalize every arrow. -/
def type_check {W : Type} (fuel : Nat) (program : List (Term W)) :
    Except Err (List (TypedNode W)) :=
  if program.isEmpty then .ok []
  else
    match constraintLoop fuel program.toArray program #[] initState with
    | .error e => .error e
    | .ok (rcs, s) =>
      match finalizeLoop fuel rcs program 0 #[] s with
      | .error e => .error e
      | .ok (finals, _) => .ok finals.toList

/-- Modelled from the spec: the structural `Value` type of §4.3 (the
source's `Value` lives in lib.rs, outside the provided sources): a value
mirrors the type algebra as `UnitValue`, `SumL(V)`, `SumR(V)` or
`ProductValue(V1, V2)`. -/
inductive Value : Type where
  | UnitValue : Value
  | SumL : Value → Value
  | SumR : Value → Value
  | ProductValue : Value → Value → Value
deriving Repr, DecidableEq

/-- Modelled from the spec: MSB-first reading of `n` bits as an unsigned
integer (§4.1's BitReader "read N bits", used by natural decoding; the
source's `BitIter` lives in bititer.rs, outside the provided sources). -/
def read_bits : Nat → List Bool → Except Err (Nat × List Bool)
  | 0, bits => .ok (0, bits)
  | _ + 1, [] => .error .EndOfStream
  | n + 1, b :: rest =>
    match read_bits n rest with
    | .error e => .error e
    | .ok (v, rest') => .ok ((if b then 2 ^ n else 0) + v, rest')

/-- Modelled from the spec: `decode_natural` (§4.1; the source's
`encode::decode_natural` lives in encode.rs, outside the provided
sources).  Read one bit; `0` yields `1`; otherwise read a natural `m`,
then `m` more bits `b`, and yield `2^m + b`.  The call site in
src/program.rs passes bound `None`, so no magnitude cap applies. -/
def decode_natural (fuel : Nat) (bits : List Bool) :
    Except Err (Nat × List Bool) :=
  match fuel with
  | 0 => .error .OutOfFuel
  | fuel + 1 =>
    match bits with
    | [] => .error .EndOfStream
    | b :: rest =>
      if b then
        match decode_natural fuel rest with
        | .error e => .error e
        | .ok (m, rest2) =>
          match read_bits m rest2 with
          | .error e => .error e
          | .ok (n, rest3) => .ok (2 ^ m + n, rest3)
      else .ok (1, rest)

/-- Modelled from the spec: `Value::from_bits_and_type` (§4.3; the
source's implementation lives in lib.rs, outside the provided sources).
Decoding follows the target type: `Unit` consumes no bits; `Sum` reads
one bit selecting the branch; `Product` decodes left then right. -/
def from_bits_and_type : List Bool → FinalType →
    Except Err (Value × List Bool)
  | bits, .mk .unit _ => .ok (.UnitValue, bits)
  | bits, .mk (.sum a b) _ =>
    match bits with
    | [] => .error .EndOfStream
    | bit :: rest =>
      if bit then
        match from_bits_and_type rest b with
        | .error e => .error e
        | .ok (v, rest') => .ok (.SumR v, rest')
      else
        match from_bits_and_type rest a with
        | .error e => .error e
        | .ok (v, rest') => .ok (.SumL v, rest')
  | bits, .mk (.product a b) _ =>
    match from_bits_and_type bits a with
    | .error e => .error e
    | .ok (v1, rest1) =>
      match from_bits_and_type rest1 b with
      | .error e => .error e
      | .ok (v2, rest2) => .ok (.ProductValue v1 v2, rest2)

/-- Commitment Merkle Roots as a free term algebra.  Modelled from the
spec insofar as the hash primitive is concerned: cmr.rs (the tag IVs and
the SHA-256 compression `update_1`/`update`) lives outside the provided
sources, so tags are free constructors and the two compressions are free
binary/ternary constructors.  This preserves exactly which tag and which
child CMRs feed each node's CMR, which is what src/program.rs's
`compute_cmr` determines. -/
inductive Cmr : Type where
  | tag_iden | tag_unit | tag_injl | tag_injr | tag_take | tag_drop
  | tag_comp | tag_case | tag_pair | tag_disconnect | tag_witness
  | hiddenCmr : Nat → Cmr
  | extCmr : Nat → Cmr
  | update_1 : Cmr → Cmr → Cmr
  | update : Cmr → Cmr → Cmr → Cmr
deriving Repr, DecidableEq

/-- `ProgramNode` from src/program.rs: a typed term plus its DAG index
and cached CMR and resource bounds. -/
structure ProgramNode : Type where
  node : Term Value
  index : Nat
  cmr : Cmr
  source_ty : FinalType
  target_ty : FinalType
  extra_cells_bound : Nat
  frame_count_bound : Nat
deriving Repr, DecidableEq

/-- The back-reference lookup `program[idx - i]` used throughout
src/program.rs.  `idx - i` is a `usize` subtraction: it panics when
`i > idx`, and indexing panics when the result is not a valid index of
the already-built prefix. -/
def childAt (program : Array ProgramNode) (idx i : Nat) :
    Except Err ProgramNode :=
  if i ≤ idx then
    match program[idx - i]? with
    | none => .error .PanicIndex
    | some n => .ok n
  else .error .PanicIndex

/-- `compute_cmr` from src/program.rs. -/
def compute_cmr (program : Array ProgramNode) (node : Term Value)
    (idx : Nat) : Except Err Cmr :=
  match node with
  | .Iden => .ok .tag_iden
  | .Unit => .ok .tag_unit
  | .InjL i =>
    match childAt program idx i with
    | .error e => .error e
    | .ok c => .ok (.update_1 .tag_injl c.cmr)
  | .InjR i =>
    match childAt program idx i with
    | .error e => .error e
    | .ok c => .ok (.update_1 .tag_injr c.cmr)
  | .Take i =>
    match childAt program idx i with
    | .error e => .error e
    | .ok c => .ok (.update_1 .tag_take c.cmr)
  | .Drop i =>
    match childAt program idx i with
    | .error e => .error e
    | .ok c => .ok (.update_1 .tag_drop c.cmr)
  | .Comp i j =>
    match childAt program idx i, childAt program idx j with
    | .ok ci, .ok cj => .ok (.update .tag_comp ci.cmr cj.cmr)
    | .error e, _ => .error e
    | _, .error e => .error e
  | .Case i j =>
    match childAt program idx i, childAt program idx j with
    | .ok ci, .ok cj => .ok (.update .tag_case ci.cmr cj.cmr)
    | .error e, _ => .error e
    | _, .error e => .error e
  | .Pair i j =>
    match childAt program idx i, childAt program idx j with
    | .ok ci, .ok cj => .ok (.update .tag_pair ci.cmr cj.cmr)
    | .error e, _ => .error e
    | _, .error e => .error e
  | .Disconnect i _ =>
    match childAt program idx i with
    | .error e => .error e
    | .ok c => .ok (.update_1 .tag_disconnect c.cmr)
  | .Witness _ => .ok .tag_witness
  | .Fail _ _ => .error .PanicUnimplemented
  | .Hidden cmr => .ok (.hiddenCmr cmr)
  | .Ext b => .ok (.extCmr b.cmrValue)
  | .Jet j => .ok (.extCmr j.cmrValue)

/-- `compute_extra_cells_bound` from src/program.rs. -/
def compute_extra_cells_bound (program : Array ProgramNode)
    (node : Term Value) (idx : Nat) (witness_target_width : Nat) :
    Except Err Nat :=
  match node with
  | .Iden => .ok 0
  | .Unit => .ok 0
  | .InjL i =>
    match childAt program idx i with
    | .error e => .error e
    | .ok c => .ok c.extra_cells_bound
  | .InjR i =>
    match childAt program idx i with
    | .error e => .error e
    | .ok c => .ok c.extra_cells_bound
  | .Take i =>
    match childAt program idx i with
    | .error e => .error e
    | .ok c => .ok c.extra_cells_bound
  | .Drop i =>
    match childAt program idx i with
    | .error e => .error e
    | .ok c => .ok c.extra_cells_bound
  | .Comp i j =>
    match childAt program idx i, childAt program idx j with
    | .ok ci, .ok cj =>
      .ok ((ci.target_ty.bit_width +
        max ci.extra_cells_bound cj.extra_cells_bound) % usizeMod)
    | .error e, _ => .error e
    | _, .error e => .error e
  | .Case i j =>
    match childAt program idx i, childAt program idx j with
    | .ok ci, .ok cj => .ok (max ci.extra_cells_bound cj.extra_cells_bound)
    | .error e, _ => .error e
    | _, .error e => .error e
  | .Pair i j =>
    match childAt program idx i, childAt program idx j with
    | .ok ci, .ok cj => .ok (max ci.extra_cells_bound cj.extra_cells_bound)
    | .error e, _ => .error e
    | _, .error e => .error e
  | .Disconnect i j =>
    match childAt program idx i, childAt program idx j with
    | .ok ci, .ok cj =>
      .ok ((ci.source_ty.bit_width + ci.target_ty.bit_width +
        max ci.extra_cells_bound cj.extra_cells_bound) % usizeMod)
    | .error e, _ => .error e
    | _, .error e => .error e
  | .Witness _ => .ok witness_target_width
  | .Fail _ _ => .error .PanicUnimplemented
  | .Hidden _ => .ok 0
  | .Ext _ => .ok 0
  | .Jet _ => .ok 0

/-- `compute_frame_count_bound` from src/program.rs. -/
def compute_frame_count_bound (program : Array ProgramNode)
    (node : Term Value) (idx : Nat) : Except Err Nat :=
  match node with
  | .Iden => .ok 0
  | .Unit => .ok 0
  | .InjL i =>
    match childAt program idx i with
    | .error e => .error e
    | .ok c => .ok c.frame_count_bound
  | .InjR i =>
    match childAt program idx i with
    | .error e => .error e
    | .ok c => .ok c.frame_count_bound
  | .Take i =>
    match childAt program idx i with
    | .error e => .error e
    | .ok c => .ok c.frame_count_bound
  | .Drop i =>
    match childAt program idx i with
    | .error e => .error e
    | .ok c => .ok c.frame_count_bound
  | .Comp i j =>
    match childAt program idx i, childAt program idx j with
    | .ok ci, .ok cj =>
      .ok ((1 + max ci.frame_count_bound cj.frame_count_bound) % usizeMod)
    | .error e, _ => .error e
    | _, .error e => .error e
  | .Case i j =>
    match childAt program idx i, childAt program idx j with
    | .ok ci, .ok cj => .ok (max ci.frame_count_bound cj.frame_count_bound)
    | .error e, _ => .error e
    | _, .error e => .error e
  | .Pair i j =>
    match childAt program idx i, childAt program idx j with
    | .ok ci, .ok cj => .ok (max ci.frame_count_bound cj.frame_count_bound)
    | .error e, _ => .error e
    | _, .error e => .error e
  | .Disconnect i j =>
    match childAt program idx i, childAt program idx j with
    | .ok ci, .ok cj =>
      .ok ((2 + max ci.frame_count_bound cj.frame_count_bound) % usizeMod)
    | .error e, _ => .error e
    | _, .error e => .error e
  | .Witness _ => .ok 0
  | .Fail _ _ => .error .PanicUnimplemented
  | .Hidden _ => .ok 0
  | .Ext _ => .ok 0
  | .Jet _ => .ok 0

/-- The witness-reading `map` inside `Program::from_untyped_nodes`: each
typed node's term is rebuilt variant by variant, with the `Witness(())`
payload replaced by `Value::from_bits_and_type` applied to the node's
computed target type against the shared bit iterator. -/
def readWitnessNode (node : Term Unit) (target_ty : FinalType)
    (bits : List Bool) : Except Err (Term Value × List Bool) :=
  match node with
  | .Iden => .ok (.Iden, bits)
  | .Unit => .ok (.Unit, bits)
  | .InjL i => .ok (.InjL i, bits)
  | .InjR i => .ok (.InjR i, bits)
  | .Take i => .ok (.Take i, bits)
  | .Drop i => .ok (.Drop i, bits)
  | .Comp i j => .ok (.Comp i j, bits)
  | .Case i j => .ok (.Case i j, bits)
  | .Pair i j => .ok (.Pair i j, bits)
  | .Disconnect i j => .ok (.Disconnect i j, bits)
  | .Witness _ =>
    match from_bits_and_type bits target_ty with
    | .error e => .error e
    | .ok (v, bits') => .ok (.Witness v, bits')
  | .Fail x y => .ok (.Fail x y, bits)
  | .Hidden x => .ok (.Hidden x, bits)
  | .Ext e => .ok (.Ext e, bits)
  | .Jet j => .ok (.Jet j, bits)

/-- The witness-reading pass over the whole typed program, threading the
bit iterator left to right. -/
def readWitnessData : List (TypedNode Unit) → List Bool →
    Except Err (List (TypedNode Value) × List Bool)
  | [], bits => .ok ([], bits)
  | tn :: rest, bits =>
    match readWitnessNode tn.node tn.target_ty bits with
    | .error e => .error e
    | .ok (node', bits') =>
      match readWitnessData rest bits' with
      | .error e => .error e
      | .ok (rest', bits'') =>
        .ok (⟨node', tn.source_ty, tn.target_ty⟩ :: rest', bits'')

/-- The final loop of `Program::from_untyped_nodes`: fold over the typed
nodes, computing each node's CMR and bounds from the already-built
prefix `ret` only, then appending the finished `ProgramNode`. -/
def assembleLoop : List (TypedNode Value) → Nat → Array ProgramNode →
    Except Err (Array ProgramNode)
  | [], _, ret => .ok ret
  | tn :: rest, index, ret =>
    match compute_cmr ret tn.node index with
    | .error e => .error e
    | .ok cmr =>
      match compute_extra_cells_bound ret tn.node index
          tn.target_ty.bit_width with
      | .error e => .error e
      | .ok cells =>
        match compute_frame_count_bound ret tn.node index with
        | .error e => .error e
        | .ok frames =>
          assembleLoop rest (index + 1)
            (ret.push ⟨tn.node, index, cmr, tn.source_ty, tn.target_ty,
              cells, frames⟩)

/-- `Program::from_untyped_nodes` from src/program.rs: type-check the
untyped nodes; read the witness-block header (one bit, then a natural
length when the bit is set) into `_wit_len`, which is then ignored (the
source's `FIXME actually only read as much as wit_len`); read each
witness leaf's value type-directedly from the same iterator; then
assemble the `ProgramNode`s.  Returns the program together with the
unconsumed remainder of the bit stream. -/
def from_untyped_nodes (fuel : Nat) (nodes : List (Term Unit))
    (iter : List Bool) : Except Err (List ProgramNode × List Bool) :=
  match type_check fuel nodes with
  | .error e => .error e
  | .ok typed =>
    let header : Except Err (Nat × List Bool) :=
      match iter with
      | [] => .error .EndOfStream
      | b :: rest =>
        if b then decode_natural fuel rest else .ok (0, rest)
    match header with
    | .error e => .error e
    | .ok (_wit_len, iter1) =>
      match readWitnessData typed iter1 with
      | .error e => .error e
      | .ok (typedV, iter2) =>
        match assembleLoop typedV 0 #[] with
        | .error e => .error e
        | .ok ret => .ok (ret.toList, iter2)

/-! ## Shared concrete types used in the claim theorems -/

/-- The finalized `Unit` type (width 0). -/
def unitFT : FinalType := .mk .unit 0

/-- The finalized `Sum(Unit, Unit)` type (width 1). -/
def twoFT : FinalType := .mk (.sum unitFT unitFT) 1

/-- Two terms have the same shape when they are the same combinator
with the same payloads, except that a `Witness` payload may differ (the
decoded witness value replaces the unit placeholder). -/
def sameShape : Term Unit → Term Value → Prop
  | .Iden, .Iden => True
  | .Unit, .Unit => True
  | .InjL i, .InjL j => i = j
  | .InjR i, .InjR j => i = j
  | .Take i, .Take j => i = j
  | .Drop i, .Drop j => i = j
  | .Comp i j, .Comp i' j' => i = i' ∧ j = j'
  | .Case i j, .Case i' j' => i = i' ∧ j = j'
  | .Pair i j, .Pair i' j' => i = i' ∧ j = j'
  | .Disconnect i j, .Disconnect i' j' => i = i' ∧ j = j'
  | .Witness _, .Witness _ => True
  | .Fail x y, .Fail x' y' => x = x' ∧ y = y'
  | .Hidden c, .Hidden c' => c = c'
  | .Ext b, .Ext b' => b = b'
  | .Jet b, .Jet b' => b = b'
  | _, _ => False

/-- A 66-node width-doubling program: `Unit`; `InjL(0)` (target width
1); then 64 `Pair(k-1, k-1)` nodes, each binding its target to the
product of two copies of its predecessor's target and so doubling the
target width.  Node 65's target width reaches `2 ^ 64` and wraps to 0
in the `usize` arithmetic of `FinalType::from_var`. -/
def overflowProg : List (Term Unit) :=
  Term.Unit :: Term.InjL 0 ::
    (List.range 64).map (fun k => Term.Pair (k + 1) (k + 1))

/-- The exact (unwrapped) width recurrence, checked at the root of a
finalized type: `0` for unit, `1 + max` of the children's widths for a
sum, the sum of the children's widths for a product. -/
def widthExactAtRoot : FinalType → Bool
  | .mk .unit w => w == 0
  | .mk (.sum a b) w => w == 1 + max a.bit_width b.bit_width
  | .mk (.product a b) w => w == a.bit_width + b.bit_width

/-! ## Claim C1 -/

/-- C1, counterexample: the claim says `type_check` rejects a program
containing a `Case` whose two children are both `Hidden` with the
`TypeCheck` error.  On the concrete program
`[Hidden, Hidden, Case(0, 1)]` it does not: `type_check` accepts it. -/
theorem c1_counterexample :
    type_check 100
      [Term.Hidden 0, Term.Hidden 0, (Term.Case 0 1 : Term Unit)] ≠
      Except.error Err.TypeCheck := by
  decide

/-- C1, amended: `type_check` accepts a `Case` whose two children are
both `Hidden`: each `Hidden` child is skipped by the `Case` arm, so no
constraint relates the `Case`'s source components to anything, no
`TypeCheck` error is raised, and finalization defaults the types — the
`Case` gets source `Product(Sum(Unit, Unit), Unit)` and target `Unit`. -/
theorem c1_amended_accepts :
    type_check 100
      [Term.Hidden 0, Term.Hidden 0, (Term.Case 0 1 : Term Unit)] =
      Except.ok
        [⟨Term.Hidden 0, unitFT, unitFT⟩,
         ⟨Term.Hidden 0, unitFT, unitFT⟩,
         ⟨Term.Case 0 1, .mk (.product twoFT unitFT) 1, unitFT⟩] := by
  rfl

/-! ## Claim C3 -/

/-- C3, counterexample: the claim says that on a `Fail` node the
pipeline returns the `UnsupportedFail` error by value and never panics.
On the concrete one-node program `[Fail(0, 0)]`, `type_check` instead
hits `unimplemented!` (modelled as `PanicUnimplemented`), as do
`compute_cmr`, `compute_extra_cells_bound` and
`compute_frame_count_bound` on a `Fail` term; none of them produces
`UnsupportedFail`. -/
theorem c3_counterexample :
    type_check 100 [(Term.Fail 0 0 : Term Unit)] =
        Except.error Err.PanicUnimplemented ∧
      type_check 100 [(Term.Fail 0 0 : Term Unit)] ≠
        Except.error Err.UnsupportedFail ∧
      compute_cmr #[] (Term.Fail 0 0) 0 =
        Except.error Err.PanicUnimplemented ∧
      compute_extra_cells_bound #[] (Term.Fail 0 0) 0 0 =
        Except.error Err.PanicUnimplemented ∧
      compute_frame_count_bound #[] (Term.Fail 0 0) 0 =
        Except.error Err.PanicUnimplemented := by
  exact ⟨rfl, by decide, rfl, rfl, rfl⟩

/-- C3, amended: on any `Fail` node, `type_check` (when the `Fail` is
the first node processed), `compute_cmr`, `compute_extra_cells_bound`
and `compute_frame_count_bound` all abort through `unimplemented!`
(modelled as the `PanicUnimplemented` panic value) rather than returning
an `UnsupportedFail` error value. -/
theorem c3_amended_panics (fuel x y idx w : Nat)
    (p : Array ProgramNode) (rest : List (Term Unit)) :
    type_check fuel (Term.Fail x y :: rest) =
        Except.error Err.PanicUnimplemented ∧
      compute_cmr p (Term.Fail x y) idx =
        Except.error Err.PanicUnimplemented ∧
      compute_extra_cells_bound p (Term.Fail x y) idx w =
        Except.error Err.PanicUnimplemented ∧
      compute_frame_count_bound p (Term.Fail x y) idx =
        Except.error Err.PanicUnimplemented := by
  refine ⟨?_, rfl, rfl, rfl⟩
  simp [type_check, constraintLoop, addConstraints]

/-! ## Claim C4 -/

/-- C4 concerns how the child payloads `i` (and `j`) are resolved.
`compute_cmr` (with the other src/program.rs computations) resolves the
payload as a back-reference distance, reading `program[idx - i]`;
`type_check` in src/types.rs instead indexes `rcs[i]` directly, treating
the payload as an absolute position.  On the program
`[Unit, InjL(1)]` — the very program the repository's own test
`injl_unit_prog` decodes from `0x89 0x20` and expects to succeed —
`type_check` reads `rcs[1]` while only `rcs[0]` exists and panics
(modelled as `PanicIndex`), whereas `compute_cmr` resolves node
`idx - i = 0` and hashes `update_1(tag_injl, cmr[0])`. -/
theorem c4_code_eval :
    type_check 100 [Term.Unit, (Term.InjL 1 : Term Unit)] =
        Except.error Err.PanicIndex ∧
      compute_cmr
        #[⟨Term.Unit, 0, .tag_unit, unitFT, unitFT, 0, 0⟩]
        (Term.InjL 1) 1 =
        Except.ok (.update_1 .tag_injl .tag_unit) := by
  exact ⟨rfl, rfl⟩

/-! ## Claim C2 -/

/-- C2, evaluation at the failing input: the claim (with the spec)
requires the total bits consumed by witness decoding to equal the
declared witness-block length `W`, with an error on mismatch.  On the
one-node program `[Witness]` with bit stream `[1, 0]`, the header
declares `W = 1` (second conjunct: the natural after the set bit decodes
to `1`, consuming the whole stream), the unconstrained witness leaf gets
target type `Unit` and so consumes `0` bits — a mismatch — yet
`from_untyped_nodes` succeeds, ignoring `_wit_len` as the source's
`FIXME actually only read as much as wit_len` records. -/
theorem c2_code_eval :
    from_untyped_nodes 100 [Term.Witness ()] [true, false] =
        Except.ok
          ([⟨Term.Witness Value.UnitValue, 0, .tag_witness,
             unitFT, unitFT, 0, 0⟩], []) ∧
      decode_natural 100 [false] = Except.ok (1, []) := by
  exact ⟨rfl, rfl⟩

/-! ## Claim C8 -/

/-- C8: `compute_cmr` hashes a `Disconnect(i, j)` node as
`update_1(tag_disconnect, cmr[idx - i])` — only the left child's CMR is
consumed, and the result is independent of `j` (second conjunct, with no
range condition on `j` or `j'` at all) — while `Comp`, `Case` and `Pair`
hash both children's CMRs with the two-child compression `update`. -/
theorem c8_disconnect_cmr (p : Array ProgramNode) (idx i j j' : Nat)
    (hik : idx - i < p.size) (hi : i ≤ idx)
    (hjk : idx - j < p.size) (hj : j ≤ idx) :
    compute_cmr p (.Disconnect i j) idx =
        .ok (.update_1 .tag_disconnect (p.get ⟨idx - i, hik⟩).cmr) ∧
      compute_cmr p (.Disconnect i j) idx =
        compute_cmr p (.Disconnect i j') idx ∧
      compute_cmr p (.Comp i j) idx =
        .ok (.update .tag_comp (p.get ⟨idx - i, hik⟩).cmr
          (p.get ⟨idx - j, hjk⟩).cmr) ∧
      compute_cmr p (.Case i j) idx =
        .ok (.update .tag_case (p.get ⟨idx - i, hik⟩).cmr
          (p.get ⟨idx - j, hjk⟩).cmr) ∧
      compute_cmr p (.Pair i j) idx =
        .ok (.update .tag_pair (p.get ⟨idx - i, hik⟩).cmr
          (p.get ⟨idx - j, hjk⟩).cmr) := by
  have hci : childAt p idx i = .ok (p.get ⟨idx - i, hik⟩) := by
    simp [childAt, hi, Array.getElem?_eq_getElem hik, Array.get]
  have hcj : childAt p idx j = .ok (p.get ⟨idx - j, hjk⟩) := by
    simp [childAt, hj, Array.getElem?_eq_getElem hjk, Array.get]
  refine ⟨?_, ?_, ?_, ?_, ?_⟩ <;>
    simp [compute_cmr, hci, hcj]

/-- C8, witness: the theorem applied at a concrete one-node prefix. -/
theorem c8_disconnect_cmr_witness :
    compute_cmr #[⟨Term.Unit, 0, .tag_unit, unitFT, unitFT, 0, 0⟩]
        (.Disconnect 1 1) 1 =
      .ok (.update_1 .tag_disconnect .tag_unit) := by
  exact (c8_disconnect_cmr
    #[⟨Term.Unit, 0, .tag_unit, unitFT, unitFT, 0, 0⟩] 1 1 1 5
    (by decide) (by decide) (by decide) (by decide)).1

/-! ## Claim C6 -/

/-- C6: a unification variable whose representative is still `Free` at
finalization time is finalized to the concrete type `Unit` (first
conjunct: `from_var` on a `Free` variable — a `Free` variable is its own
representative — returns the unit type of width 0, for every state and
every sufficient fuel); consequently an unconstrained `Witness` leaf
gets target type `Unit` (second conjunct: `type_check` on the one-node
program `[Witness]`, whose leaf receives no constraint, succeeds with
source and target both `Unit`). -/
theorem c6_free_defaults_unit :
    (∀ (f v : Nat) (s : St) (u : UnificationVar),
      s[v]? = some u → u.var = .Free →
      from_var (f + 2) v s =
        .ok (.mk .unit 0, setVar s v ⟨.Finalized (.mk .unit 0), u.rank⟩)) ∧
      type_check 100 [(Term.Witness () : Term Unit)] =
        .ok [⟨Term.Witness (), unitFT, unitFT⟩] := by
  constructor
  · intro f v s u hv hfree
    have hfr : find_root (f + 1) v s = .ok (v, s) := by
      simp [find_root, hv, hfree]
    show from_var (f + 1 + 1) v s = _
    simp [from_var, hfr, hv, hfree]
  · rfl

/-- C6, witness: the first conjunct applied at a concrete one-variable
free arena. -/
theorem c6_free_defaults_unit_witness :
    from_var 2 0 #[⟨.Free, 0⟩] =
      .ok (.mk .unit 0, setVar #[⟨.Free, 0⟩] 0 ⟨.Finalized (.mk .unit 0), 0⟩) :=
  c6_free_defaults_unit.1 0 0 #[⟨.Free, 0⟩] ⟨.Free, 0⟩ rfl rfl

/-! ## Claim C7 -/

/-- C7: finalization fails with `OccursCheck` when a `Bound` variable is
re-entered while its occurs flag is already set (first conjunct:
`from_var` on a representative whose state is `Bound(ty, true)` — the
state a variable is in exactly while its own finalization is still in
progress — fails with `OccursCheck`, for every state and sufficient
fuel); hence a program whose constraints infer a cyclic type is rejected
with `OccursCheck` (second conjunct: on `[Iden, InjL(0), Comp(1, 0)]`
the constraints force `t0 ≡ Sum(t0, α)`, and `type_check` returns
exactly `OccursCheck`). -/
theorem c7_occurs_check :
    (∀ (f v : Nat) (s : St) (ty : Ty) (u : UnificationVar),
      s[v]? = some u → u.var = .Bound ty true →
      from_var (f + 2) v s = .error .OccursCheck) ∧
      type_check 100 [Term.Iden, Term.InjL 0, (Term.Comp 1 0 : Term Unit)] =
        .error .OccursCheck := by
  constructor
  · intro f v s ty u hv hbound
    have hfr : find_root (f + 1) v s = .ok (v, s) := by
      simp [find_root, hv, hbound]
    show from_var (f + 1 + 1) v s = _
    simp [from_var, hfr, hv, hbound]
  · rfl

/-- C7, witness: the first conjunct applied at a concrete one-variable
arena whose variable is mid-finalization. -/
theorem c7_occurs_check_witness :
    from_var 2 0 #[⟨.Bound .unit true, 0⟩] = .error .OccursCheck :=
  c7_occurs_check.1 0 0 #[⟨.Bound .unit true, 0⟩] .unit
    ⟨.Bound .unit true, 0⟩ rfl rfl

/-! ## Arena access lemmas -/

theorem size_setVar (s : St) (i : Nat) (v : UnificationVar) :
    (setVar s i v).size = s.size := by
  by_cases hi : i < s.size <;> simp [setVar, hi]

theorem getElem?_setVar_self {s : St} {i : Nat} (h : i < s.size)
    (v : UnificationVar) : (setVar s i v)[i]? = some v := by
  simp [setVar, h, Array.get?_set]

theorem getElem?_setVar_ne {s : St} {i j : Nat} (h : i ≠ j)
    (v : UnificationVar) : (setVar s i v)[j]? = s[j]? := by
  by_cases hi : i < s.size
  · simp [setVar, hi, Array.get?_set, h]
  · simp [setVar, hi]

theorem getElem?_setVar (s : St) (i j : Nat) (v : UnificationVar) :
    (setVar s i v)[j]? =
      if i = j ∧ i < s.size then some v else s[j]? := by
  rcases eq_or_ne i j with rfl | hne
  · by_cases hi : i < s.size
    · simp [hi, getElem?_setVar_self hi]
    · simp [hi, setVar]
  · simp [getElem?_setVar_ne hne, hne]

theorem getElem?_push_lt {s : St} {i : Nat} (h : i < s.size)
    (v : UnificationVar) : (s.push v)[i]? = s[i]? := by
  rw [Array.getElem?_push]
  simp [Nat.ne_of_lt h]

theorem getElem?_push_self (s : St) (v : UnificationVar) :
    (s.push v)[s.size]? = some v := by
  rw [Array.getElem?_push]
  simp

/-! ## State invariants -/

/-- Whether a variable state textually references arena index `m` (a
union-find parent pointer or a bound shape's child). -/
def tyMentions : Ty → Nat → Prop
  | .unit, _ => False
  | .sum a b, m => a = m ∨ b = m
  | .product a b, m => a = m ∨ b = m

/-- See `tyMentions`. -/
def mentions : Variable → Nat → Prop
  | .Free, _ => False
  | .Bound ty _, m => tyMentions ty m
  | .EqualTo p, m => p = m
  | .Finalized _, _ => False

/-- No variable in the arena is `Finalized`; this holds throughout the
constraint phase of `type_check` (finalization only happens in the
second loop). -/
def NoFin (s : St) : Prop :=
  ∀ (i : Nat) (u : UnificationVar), s[i]? = some u →
    ∀ ft, u.var ≠ .Finalized ft

/-- Every arena index referenced by a variable state is in bounds. -/
def RB (s : St) : Prop :=
  ∀ (i : Nat) (u : UnificationVar), s[i]? = some u →
    ∀ m, mentions u.var m → m < s.size

/-- Index `m` is a freshly allocated variable: it is `Free` and no
variable in the arena references it. -/
def Fresh (s : St) (m : Nat) : Prop :=
  (∃ u : UnificationVar, s[m]? = some u ∧ u.var = .Free) ∧
    ∀ (i : Nat) (u : UnificationVar), s[i]? = some u →
      ¬ mentions u.var m

/-- Index `v` is not an `EqualTo` link, i.e. it is the representative of
its union-find class (the precondition `bind` expects). -/
def RootLike (s : St) (v : Nat) : Prop :=
  ∀ u : UnificationVar, s[v]? = some u → ∀ p, u.var ≠ .EqualTo p

theorem noFin_setVar {s : St} {v : UnificationVar}
    (hs : NoFin s) (hv : ∀ ft, v.var ≠ .Finalized ft) (i : Nat) :
    NoFin (setVar s i v) := by
  intro j u hj ft
  rw [getElem?_setVar] at hj
  split at hj
  · cases hj; exact hv ft
  · exact hs _ _ hj ft

theorem noFin_push {s : St} {v : UnificationVar}
    (hs : NoFin s) (hv : ∀ ft, v.var ≠ .Finalized ft) :
    NoFin (s.push v) := by
  intro j u hj ft
  rw [Array.getElem?_push] at hj
  split at hj
  · cases hj; exact hv ft
  · exact hs _ _ hj ft

theorem rb_setVar {s : St} {v : UnificationVar}
    (hs : RB s) (hv : ∀ m, mentions v.var m → m < s.size) (i : Nat) :
    RB (setVar s i v) := by
  intro j u hj m hm
  rw [size_setVar]
  rw [getElem?_setVar] at hj
  split at hj
  · cases hj; exact hv m hm
  · exact hs _ _ hj m hm

theorem rb_push {s : St} {v : UnificationVar}
    (hs : RB s) (hv : ∀ m, mentions v.var m → m < s.size + 1) :
    RB (s.push v) := by
  intro j u hj m hm
  rw [Array.size_push]
  rw [Array.getElem?_push] at hj
  split at hj
  · cases hj; exact hv m hm
  · exact Nat.lt_succ_of_lt (hs _ _ hj m hm)

theorem fresh_setVar {s : St} {m i : Nat} {v : UnificationVar}
    (hf : Fresh s m) (hi : i ≠ m) (hv : ¬ mentions v.var m) :
    Fresh (setVar s i v) m := by
  obtain ⟨⟨u0, hu0, hu0f⟩, hnm⟩ := hf
  refine ⟨⟨u0, ?_, hu0f⟩, ?_⟩
  · rw [getElem?_setVar_ne hi]; exact hu0
  · intro j u hj
    rw [getElem?_setVar] at hj
    split at hj
    · cases hj; exact hv
    · exact hnm _ _ hj

theorem fresh_push {s : St} {m : Nat} {v : UnificationVar}
    (hf : Fresh s m) (hv : ¬ mentions v.var m) : Fresh (s.push v) m := by
  obtain ⟨⟨u0, hu0, hu0f⟩, hnm⟩ := hf
  have hm : m < s.size := by
    by_contra hge
    rw [getElem?_neg s m hge] at hu0
    cases hu0
  refine ⟨⟨u0, ?_, hu0f⟩, ?_⟩
  · rw [getElem?_push_lt hm]; exact hu0
  · intro j u hj
    rw [Array.getElem?_push] at hj
    split at hj
    · cases hj; exact hv
    · exact hnm _ _ hj

/-- Pushing a free variable onto an arena with in-bounds references
yields a `Fresh` index at the old size. -/
theorem fresh_newVar {s : St} (hrb : RB s) :
    Fresh (s.push .free) s.size := by
  refine ⟨⟨.free, getElem?_push_self s _, rfl⟩, ?_⟩
  intro j u hj hm
  rw [Array.getElem?_push] at hj
  split at hj
  · cases hj; exact hm
  · exact Nat.lt_irrefl _ (hrb _ _ hj _ hm)

theorem fresh_rootLike {s : St} {m : Nat} (hf : Fresh s m) :
    RootLike s m := by
  intro u hu p hEq
  obtain ⟨⟨u0, hu0, hu0f⟩, -⟩ := hf
  simp_all

/-! ## `find_root` specification -/

/-- `find_root` can fail only by running out of fuel or by indexing out
of the arena. -/
theorem find_root_error : ∀ (f n : Nat) (s : St) (e : Err),
    find_root f n s = .error e → e = .OutOfFuel ∨ e = .PanicIndex := by
  intro f
  induction f with
  | zero =>
    intro n s e h
    simp only [find_root] at h
    cases h
    exact .inl rfl
  | succ f ih =>
    intro n s e h
    simp only [find_root] at h
    cases hn : s[n]? with
    | none =>
      simp only [hn] at h
      cases h
      exact .inr rfl
    | some u =>
      simp only [hn] at h
      cases hv : u.var with
      | EqualTo parent =>
        simp only [hv] at h
        cases hp : s[parent]? with
        | none =>
          simp only [hp] at h
          cases h
          exact .inr rfl
        | some pu =>
          simp only [hp] at h
          cases hpv : pu.var with
          | EqualTo gp => simp only [hpv] at h; exact ih _ _ _ h
          | Free => simp only [hpv] at h; exact ih _ _ _ h
          | Bound ty oc => simp only [hpv] at h; exact ih _ _ _ h
          | Finalized ft => simp only [hpv] at h; exact ih _ _ _ h
      | Free => simp only [hv] at h; cases h
      | Bound ty oc => simp only [hv] at h; cases h
      | Finalized ft => simp only [hv] at h; cases h

/-- Everything preserved or guaranteed by a successful `find_root`:
the arena size is unchanged; the returned representative holds a
non-`EqualTo` state; `NoFin`, `RB`, every `RootLike` index and every
distinct `Fresh` index are preserved; and the representative of a
non-fresh index is not a fresh index. -/
theorem find_root_spec : ∀ (f n : Nat) (s : St) (r : Nat) (s' : St),
    find_root f n s = .ok (r, s') →
    s'.size = s.size ∧
    (∃ u, s'[r]? = some u ∧ ∀ p, u.var ≠ .EqualTo p) ∧
    (NoFin s → NoFin s') ∧
    (RB s → RB s') ∧
    (∀ v, RootLike s v → RootLike s' v) ∧
    (∀ m, Fresh s m → n ≠ m → r ≠ m ∧ Fresh s' m) := by
  intro f
  induction f with
  | zero =>
    intro n s r s' h
    simp only [find_root] at h
    cases h
  | succ f ih =>
    intro n s r s' h
    simp only [find_root] at h
    cases hn : s[n]? with
    | none => simp only [hn] at h; cases h
    | some u =>
      simp only [hn] at h
      cases hv : u.var with
      | Free =>
        simp only [hv] at h
        cases h
        exact ⟨rfl, ⟨u, hn, by rw [hv]; intro p hp; cases hp⟩,
          id, id, fun v hv => hv, fun m hm hnm => ⟨hnm, hm⟩⟩
      | Bound ty oc =>
        simp only [hv] at h
        cases h
        exact ⟨rfl, ⟨u, hn, by rw [hv]; intro p hp; cases hp⟩,
          id, id, fun v hv => hv, fun m hm hnm => ⟨hnm, hm⟩⟩
      | Finalized ft =>
        simp only [hv] at h
        cases h
        exact ⟨rfl, ⟨u, hn, by rw [hv]; intro p hp; cases hp⟩,
          id, id, fun v hv => hv, fun m hm hnm => ⟨hnm, hm⟩⟩
      | EqualTo parent =>
        simp only [hv] at h
        cases hp : s[parent]? with
        | none => simp only [hp] at h; cases h
        | some pu =>
          simp only [hp] at h
          cases hpv : pu.var with
          | EqualTo gp =>
            simp only [hpv] at h
            -- path halving wrote `EqualTo gp` over index n
            obtain ⟨hsz, hroot, hnofin, hrb, hrl, hfr⟩ := ih _ _ _ _ h
            have hszs : (setVar s n ⟨.EqualTo gp, u.rank⟩).size = s.size :=
              size_setVar ..
            refine ⟨by rw [hsz, hszs], hroot, ?_, ?_, ?_, ?_⟩
            · intro hnf
              refine hnofin (noFin_setVar hnf ?_ n)
              intro ft hft
              cases hft
            · intro hrbs
              have : RB (setVar s n ⟨.EqualTo gp, u.rank⟩) := by
                refine rb_setVar hrbs ?_ n
                intro m hm
                cases hm
                exact hrbs _ _ hp gp (by rw [hpv]; rfl)
              exact hrb this
            · intro v hvv
              refine hrl v ?_
              intro uu huu p
              have hvn : v ≠ n := by
                intro hEq
                subst hEq
                exact hvv u hn parent hv
              rw [getElem?_setVar_ne (Ne.symm hvn)] at huu
              exact hvv uu huu p
            · intro m hm hnm
              have hpm : parent ≠ m := by
                intro hEq
                subst hEq
                exact hm.2 _ _ hn (by rw [hv]; rfl)
              have hgm : gp ≠ m := by
                intro hEq
                subst hEq
                exact hm.2 _ _ hp (by rw [hpv]; rfl)
              refine hfr m ?_ hpm
              exact fresh_setVar hm hnm (by intro hc; exact hgm hc)
          | Free =>
            simp only [hpv] at h
            obtain ⟨hsz, hroot, hnofin, hrb, hrl, hfr⟩ := ih _ _ _ _ h
            refine ⟨hsz, hroot, hnofin, hrb, hrl, ?_⟩
            intro m hm hnm
            have hpm : parent ≠ m := by
              intro hEq
              subst hEq
              exact hm.2 _ _ hn (by rw [hv]; rfl)
            exact hfr m hm hpm
          | Bound ty oc =>
            simp only [hpv] at h
            obtain ⟨hsz, hroot, hnofin, hrb, hrl, hfr⟩ := ih _ _ _ _ h
            refine ⟨hsz, hroot, hnofin, hrb, hrl, ?_⟩
            intro m hm hnm
            have hpm : parent ≠ m := by
              intro hEq
              subst hEq
              exact hm.2 _ _ hn (by rw [hv]; rfl)
            exact hfr m hm hpm
          | Finalized ft =>
            simp only [hpv] at h
            obtain ⟨hsz, hroot, hnofin, hrb, hrl, hfr⟩ := ih _ _ _ _ h
            refine ⟨hsz, hroot, hnofin, hrb, hrl, ?_⟩
            intro m hm hnm
            have hpm : parent ≠ m := by
              intro hEq
              subst hEq
              exact hm.2 _ _ hn (by rw [hv]; rfl)
            exact hfr m hm hpm

/-- A successful `find_root` returns a representative: convenience
restatement of `find_root_spec`'s root fact as `RootLike`. -/
theorem find_root_rootLike {f n : Nat} {s : St} {r : Nat} {s' : St}
    (h : find_root f n s = .ok (r, s')) : RootLike s' r := by
  obtain ⟨-, ⟨u, hu, hne⟩, -⟩ := find_root_spec _ _ _ _ _ h
  intro uu huu p
  rw [hu] at huu
  cases huu
  exact hne p

/-! ## `unifyStep` specification -/

theorem lt_of_getElem?_some {s : St} {i : Nat} {u : UnificationVar}
    (h : s[i]? = some u) : i < s.size := by
  by_contra hge
  rw [getElem?_neg s i hge] at h
  cases h

theorem rootLike_setVar_ne {s : St} {v i : Nat} {w : UnificationVar}
    (hs : RootLike s v) (hi : i ≠ v) : RootLike (setVar s i w) v := by
  intro u hu p
  rw [getElem?_setVar_ne hi] at hu
  exact hs u hu p

theorem rootLike_setVar_keep {s : St} {v : Nat} {u0 : UnificationVar}
    (hs : RootLike s v) (hu0 : s[v]? = some u0) (r : Nat) :
    RootLike (setVar s v ⟨u0.var, r⟩) v := by
  intro u hu p
  rw [getElem?_setVar_self (lt_of_getElem?_some hu0)] at hu
  cases hu
  exact hs u0 hu0 p

/-- The index conditions under which a `unifyStep` operation cannot
touch the fresh index `m`. -/
def UnifyOp.avoids : UnifyOp → Nat → Prop
  | .bindOp v ty, m => v ≠ m ∧ ¬ tyMentions ty m
  | .unifyOp a b, m => a ≠ m ∧ b ≠ m
  | .linkOp a b, m => a ≠ m ∧ b ≠ m

/-- The index conditions under which a `unifyStep` operation writes only
in-bounds references (`k` is the arena size). -/
def UnifyOp.rbOk : UnifyOp → Nat → Prop
  | .bindOp _ ty, k => ∀ m, tyMentions ty m → m < k
  | .unifyOp _ _, _ => True
  | .linkOp a _, k => a < k

/-- Everything preserved by a successful `unifyStep`: the arena size is
unchanged and `NoFin`, `RB` and `Fresh` are preserved under the matching
side conditions. -/
theorem unifyStep_spec : ∀ (f : Nat) (op : UnifyOp) (s : St)
    (r : Unit) (s' : St), unifyStep f op s = .ok (r, s') →
    s'.size = s.size ∧
    (NoFin s → NoFin s') ∧
    (RB s → op.rbOk s.size → RB s') ∧
    (∀ m, Fresh s m → op.avoids m → Fresh s' m) := by
  intro f
  induction f with
  | zero =>
    intro op s r s' h
    simp only [unifyStep] at h
    cases h
  | succ f ih =>
    intro op s r s' h
    cases op with
    | bindOp rcvar ty =>
      simp only [unifyStep] at h
      cases hv : s[rcvar]? with
      | none => simp only [hv] at h; cases h
      | some u =>
        simp only [hv] at h
        cases hu : u.var with
        | Free =>
          simp only [hu] at h
          cases h
          have hlt := lt_of_getElem?_some hv
          refine ⟨size_setVar .., ?_, ?_, ?_⟩
          · intro hnf
            exact noFin_setVar hnf (by intro ft hft; cases hft) _
          · intro hrb hok
            exact rb_setVar hrb (by intro m hm; exact hok m hm) _
          · intro m hm ⟨hv1, hv2⟩
            exact fresh_setVar hm hv1 hv2
        | EqualTo p => simp only [hu] at h; cases h
        | Finalized ft => simp only [hu] at h; cases h
        | Bound self_ty oc =>
          simp only [hu] at h
          cases self_ty with
          | unit =>
            cases ty with
            | unit =>
              simp only at h
              cases h
              exact ⟨rfl, id, fun hrb _ => hrb, fun m hm _ => hm⟩
            | sum b1 b2 => simp only at h; cases h
            | product b1 b2 => simp only at h; cases h
          | sum al1 al2 =>
            cases ty with
            | unit => simp only at h; cases h
            | product b1 b2 => simp only at h; cases h
            | sum be1 be2 =>
              simp only at h
              cases h1 : unifyStep f (.unifyOp al1 be1) s with
              | error e => simp only [h1] at h; cases h
              | ok p1 =>
                obtain ⟨u1, s1⟩ := p1
                simp only [h1] at h
                obtain ⟨hsz1, hnf1, hrb1, hfr1⟩ := ih _ _ _ _ h1
                obtain ⟨hsz2, hnf2, hrb2, hfr2⟩ := ih _ _ _ _ h
                refine ⟨by rw [hsz2, hsz1], fun hnf => hnf2 (hnf1 hnf),
                  ?_, ?_⟩
                · intro hrb _
                  refine hrb2 (hrb1 hrb trivial) trivial
                · intro m hm ⟨hvm, htm⟩
                  have hal1 : al1 ≠ m := by
                    intro hEq; subst hEq
                    exact hm.2 _ _ hv (by rw [hu]; exact .inl rfl)
                  have hal2 : al2 ≠ m := by
                    intro hEq; subst hEq
                    exact hm.2 _ _ hv (by rw [hu]; exact .inr rfl)
                  have hbe1 : be1 ≠ m := by
                    intro hEq; subst hEq
                    exact htm (.inl rfl)
                  have hbe2 : be2 ≠ m := by
                    intro hEq; subst hEq
                    exact htm (.inr rfl)
                  exact hfr2 m (hfr1 m hm ⟨hal1, hbe1⟩) ⟨hal2, hbe2⟩
          | product al1 al2 =>
            cases ty with
            | unit => simp only at h; cases h
            | sum b1 b2 => simp only at h; cases h
            | product be1 be2 =>
              simp only at h
              cases h1 : unifyStep f (.unifyOp al1 be1) s with
              | error e => simp only [h1] at h; cases h
              | ok p1 =>
                obtain ⟨u1, s1⟩ := p1
                simp only [h1] at h
                obtain ⟨hsz1, hnf1, hrb1, hfr1⟩ := ih _ _ _ _ h1
                obtain ⟨hsz2, hnf2, hrb2, hfr2⟩ := ih _ _ _ _ h
                refine ⟨by rw [hsz2, hsz1], fun hnf => hnf2 (hnf1 hnf),
                  ?_, ?_⟩
                · intro hrb _
                  refine hrb2 (hrb1 hrb trivial) trivial
                · intro m hm ⟨hvm, htm⟩
                  have hal1 : al1 ≠ m := by
                    intro hEq; subst hEq
                    exact hm.2 _ _ hv (by rw [hu]; exact .inl rfl)
                  have hal2 : al2 ≠ m := by
                    intro hEq; subst hEq
                    exact hm.2 _ _ hv (by rw [hu]; exact .inr rfl)
                  have hbe1 : be1 ≠ m := by
                    intro hEq; subst hEq
                    exact htm (.inl rfl)
                  have hbe2 : be2 ≠ m := by
                    intro hEq; subst hEq
                    exact htm (.inr rfl)
                  exact hfr2 m (hfr1 m hm ⟨hal1, hbe1⟩) ⟨hal2, hbe2⟩
    | unifyOp alphaIn betaIn =>
      simp only [unifyStep] at h
      cases hf1 : find_root f alphaIn s with
      | error e => simp only [hf1] at h; cases h
      | ok p1 =>
        obtain ⟨alpha0, s1⟩ := p1
        simp only [hf1] at h
        cases hf2 : find_root f betaIn s1 with
        | error e => simp only [hf2] at h; cases h
        | ok p2 =>
          obtain ⟨beta0, s2⟩ := p2
          simp only [hf2] at h
          obtain ⟨hsz1, -, hnf1, hrb1, hrl1, hfr1⟩ :=
            find_root_spec _ _ _ _ _ hf1
          obtain ⟨hsz2, -, hnf2, hrb2, hrl2, hfr2⟩ :=
            find_root_spec _ _ _ _ _ hf2
          by_cases heq : alpha0 = beta0
          · simp only [heq, if_pos rfl] at h
            cases h
            refine ⟨by rw [hsz2, hsz1], fun hnf => hnf2 (hnf1 hnf),
              fun hrb _ => hrb2 (hrb1 hrb), ?_⟩
            intro m hm ⟨hvm, hwm⟩
            exact (hfr2 m (hfr1 m hm hvm).2 hwm).2
          · simp only [if_neg heq] at h
            cases ha : s2[alpha0]? with
            | none => simp only [ha] at h; cases h
            | some ua =>
              simp only [ha] at h
              cases hb : s2[beta0]? with
              | none => simp only [hb] at h; cases h
              | some ub =>
                simp only [hb] at h
                have halpha : alpha0 < s2.size := lt_of_getElem?_some ha
                have hfresh2 : ∀ m, Fresh s m → alphaIn ≠ m →
                    betaIn ≠ m → (alpha0 ≠ m ∧ beta0 ≠ m) ∧ Fresh s2 m := by
                  intro m hm hvm hwm
                  obtain ⟨ham, hm1⟩ := hfr1 m hm hvm
                  obtain ⟨hbm, hm2⟩ := hfr2 m hm1 hwm
                  exact ⟨⟨ham, hbm⟩, hm2⟩
                split at h
                · -- rank ua < rank ub : link beta0 ← alpha0 on s2
                  obtain ⟨hsz3, hnf3, hrb3, hfr3⟩ := ih _ _ _ _ h
                  refine ⟨by rw [hsz3, hsz2, hsz1],
                    fun hnf => hnf3 (hnf2 (hnf1 hnf)), ?_, ?_⟩
                  · intro hrb _
                    refine hrb3 (hrb2 (hrb1 hrb)) ?_
                    show beta0 < s2.size
                    exact lt_of_getElem?_some hb
                  · intro m hm ⟨hvm, hwm⟩
                    obtain ⟨⟨ham, hbm⟩, hm2⟩ := hfresh2 m hm hvm hwm
                    exact hfr3 m hm2 ⟨hbm, ham⟩
                · split at h
                  · -- equal ranks: bump alpha0's rank, link alpha0 ← beta0
                    obtain ⟨hsz3, hnf3, hrb3, hfr3⟩ := ih _ _ _ _ h
                    have hszb : (setVar s2 alpha0 ⟨ua.var, ua.rank + 1⟩).size
                        = s2.size := size_setVar ..
                    refine ⟨by rw [hsz3, hszb, hsz2, hsz1], ?_, ?_, ?_⟩
                    · intro hnf
                      have hnfs2 := hnf2 (hnf1 hnf)
                      refine hnf3 (noFin_setVar hnfs2 ?_ _)
                      intro ft
                      exact hnfs2 alpha0 ua ha ft
                    · intro hrb _
                      have hrbs2 := hrb2 (hrb1 hrb)
                      have : RB (setVar s2 alpha0 ⟨ua.var, ua.rank + 1⟩) := by
                        refine rb_setVar hrbs2 ?_ _
                        intro m hm
                        exact hrbs2 _ _ ha m hm
                      refine hrb3 this ?_
                      show alpha0 < _
                      rw [hszb]
                      exact halpha
                    · intro m hm ⟨hvm, hwm⟩
                      obtain ⟨⟨ham, hbm⟩, hm2⟩ := hfresh2 m hm hvm hwm
                      refine hfr3 m ?_ ⟨ham, hbm⟩
                      exact fresh_setVar hm2 ham (hm2.2 alpha0 ua ha)
                  · -- rank ua > rank ub : link alpha0 ← beta0 on s2
                    obtain ⟨hsz3, hnf3, hrb3, hfr3⟩ := ih _ _ _ _ h
                    refine ⟨by rw [hsz3, hsz2, hsz1],
                      fun hnf => hnf3 (hnf2 (hnf1 hnf)), ?_, ?_⟩
                    · intro hrb _
                      exact hrb3 (hrb2 (hrb1 hrb)) halpha
                    · intro m hm ⟨hvm, hwm⟩
                      obtain ⟨⟨ham, hbm⟩, hm2⟩ := hfresh2 m hm hvm hwm
                      exact hfr3 m hm2 ⟨ham, hbm⟩
    | linkOp alpha beta =>
      simp only [unifyStep] at h
      cases hb : s[beta]? with
      | none => simp only [hb] at h; cases h
      | some ub2 =>
        simp only [hb] at h
        cases hu : ub2.var with
        | Free =>
          simp only [hu] at h
          cases h
          refine ⟨size_setVar .., ?_, ?_, ?_⟩
          · intro hnf
            exact noFin_setVar hnf (by intro ft hft; cases hft) _
          · intro hrb hok
            refine rb_setVar hrb ?_ _
            intro m hm
            cases hm
            exact hok
          · intro m hm ⟨hvm, hwm⟩
            exact fresh_setVar hm hwm (by intro hc; exact hvm hc)
        | EqualTo p => simp only [hu] at h; cases h
        | Finalized ft => simp only [hu] at h; cases h
        | Bound be_ty oc =>
          simp only [hu] at h
          obtain ⟨hsz3, hnf3, hrb3, hfr3⟩ := ih _ _ _ _ h
          have hszb : (setVar s beta ⟨.EqualTo alpha, ub2.rank⟩).size
              = s.size := size_setVar ..
          refine ⟨by rw [hsz3, hszb], ?_, ?_, ?_⟩
          · intro hnf
            refine hnf3 (noFin_setVar hnf ?_ _)
            intro ft hft
            cases hft
          · intro hrb hok
            have : RB (setVar s beta ⟨.EqualTo alpha, ub2.rank⟩) := by
              refine rb_setVar hrb ?_ _
              intro m hm
              cases hm
              exact hok
            refine hrb3 this ?_
            show ∀ m, tyMentions be_ty m → m < _
            intro m hm
            rw [hszb]
            exact hrb _ _ hb m (by rw [hu]; exact hm)
          · intro m hm ⟨hvm, hwm⟩
            have hbety : ¬ tyMentions be_ty m := by
              intro hc
              exact hm.2 _ _ hb (by rw [hu]; exact hc)
            refine hfr3 m ?_ ⟨hvm, hbety⟩
            exact fresh_setVar hm hwm (by intro hc; exact hvm hc)

/-- The key safety fact behind the claim that `bind`'s `unreachable!`
arms never execute: as long as no arena variable is `Finalized` and
every `bindOp` is issued on a representative (with every pending link
from a representative to a distinct absorbed root), `unifyStep` never
returns the `PanicBind` panic. -/
theorem unifyStep_no_panicBind : ∀ (f : Nat) (op : UnifyOp) (s : St),
    NoFin s →
    (∀ v ty, op = .bindOp v ty → RootLike s v) →
    (∀ a b, op = .linkOp a b → RootLike s a ∧ a ≠ b) →
    unifyStep f op s ≠ .error .PanicBind := by
  intro f
  induction f with
  | zero =>
    intro op s hnf hb hl
    simp [unifyStep]
  | succ f ih =>
    intro op s hnf hb hl
    cases op with
    | bindOp rcvar ty =>
      simp only [unifyStep]
      cases hv : s[rcvar]? with
      | none => simp [hv]
      | some u =>
        simp only [hv]
        cases hu : u.var with
        | Free => simp [hu]
        | EqualTo p => exact absurd hu (hb rcvar ty rfl u hv p)
        | Finalized ft => exact absurd hu (hnf _ _ hv ft)
        | Bound self_ty oc =>
          simp only [hu]
          cases self_ty with
          | unit =>
            cases ty with
            | unit => simp
            | sum b1 b2 => simp
            | product b1 b2 => simp
          | sum al1 al2 =>
            cases ty with
            | unit => simp
            | product b1 b2 => simp
            | sum be1 be2 =>
              simp only
              cases h1 : unifyStep f (.unifyOp al1 be1) s with
              | error e =>
                simp only [h1]
                intro hc
                injection hc with he
                subst he
                exact ih (.unifyOp al1 be1) s hnf
                  (by intro v t hvt; cases hvt)
                  (by intro a b hab; cases hab) h1
              | ok p1 =>
                obtain ⟨u1, s1⟩ := p1
                simp only [h1]
                obtain ⟨-, hnf1, -, -⟩ := unifyStep_spec _ _ _ _ _ h1
                exact ih (.unifyOp al2 be2) s1 (hnf1 hnf)
                  (by intro v t hvt; cases hvt)
                  (by intro a b hab; cases hab)
          | product al1 al2 =>
            cases ty with
            | unit => simp
            | sum b1 b2 => simp
            | product be1 be2 =>
              simp only
              cases h1 : unifyStep f (.unifyOp al1 be1) s with
              | error e =>
                simp only [h1]
                intro hc
                injection hc with he
                subst he
                exact ih (.unifyOp al1 be1) s hnf
                  (by intro v t hvt; cases hvt)
                  (by intro a b hab; cases hab) h1
              | ok p1 =>
                obtain ⟨u1, s1⟩ := p1
                simp only [h1]
                obtain ⟨-, hnf1, -, -⟩ := unifyStep_spec _ _ _ _ _ h1
                exact ih (.unifyOp al2 be2) s1 (hnf1 hnf)
                  (by intro v t hvt; cases hvt)
                  (by intro a b hab; cases hab)
    | unifyOp alphaIn betaIn =>
      simp only [unifyStep]
      cases hf1 : find_root f alphaIn s with
      | error e =>
        simp only [hf1]
        intro hc
        injection hc with he
        subst he
        rcases find_root_error _ _ _ _ hf1 with h | h <;> cases h
      | ok p1 =>
        obtain ⟨alpha0, s1⟩ := p1
        simp only [hf1]
        cases hf2 : find_root f betaIn s1 with
        | error e =>
          simp only [hf2]
          intro hc
          injection hc with he
          subst he
          rcases find_root_error _ _ _ _ hf2 with h | h <;> cases h
        | ok p2 =>
          obtain ⟨beta0, s2⟩ := p2
          simp only [hf2]
          obtain ⟨-, -, hnf1, -, hrl1, -⟩ := find_root_spec _ _ _ _ _ hf1
          obtain ⟨-, -, hnf2, -, hrl2, -⟩ := find_root_spec _ _ _ _ _ hf2
          have hra : RootLike s2 alpha0 :=
            hrl2 alpha0 (find_root_rootLike hf1)
          have hrb : RootLike s2 beta0 := find_root_rootLike hf2
          have hnfs2 : NoFin s2 := hnf2 (hnf1 hnf)
          by_cases heq : alpha0 = beta0
          · simp [heq]
          · simp only [if_neg heq]
            cases ha : s2[alpha0]? with
            | none => simp [ha]
            | some ua =>
              cases hbq : s2[beta0]? with
              | none => simp [hbq]
              | some ub =>
                simp only [hbq]
                by_cases hr1 : ua.rank < ub.rank
                · simp only [if_pos hr1]
                  exact ih (.linkOp beta0 alpha0) s2 hnfs2
                    (by intro v t hvt; cases hvt)
                    (by intro a b hab; cases hab;
                        exact ⟨hrb, fun hc => heq hc.symm⟩)
                · simp only [if_neg hr1]
                  by_cases hr2 : ua.rank = ub.rank
                  · simp only [if_pos hr2]
                    refine ih (.linkOp alpha0 beta0) _ ?_
                      (by intro v t hvt; cases hvt)
                      (by intro a b hab; cases hab;
                          refine ⟨rootLike_setVar_keep hra ha _, heq⟩)
                    refine noFin_setVar hnfs2 ?_ _
                    intro ft
                    exact hnfs2 alpha0 ua ha ft
                  · simp only [if_neg hr2]
                    exact ih (.linkOp alpha0 beta0) s2 hnfs2
                      (by intro v t hvt; cases hvt)
                      (by intro a b hab; cases hab; exact ⟨hra, heq⟩)
    | linkOp alpha beta =>
      simp only [unifyStep]
      cases hbq : s[beta]? with
      | none => simp [hbq]
      | some ub2 =>
        simp only [hbq]
        cases hu : ub2.var with
        | Free => simp [hu]
        | EqualTo p => simp [hu]
        | Finalized ft => simp [hu]
        | Bound be_ty oc =>
          simp only [hu]
          obtain ⟨hra, hne⟩ := hl alpha beta rfl
          refine ih (.bindOp alpha be_ty) _ ?_ ?_
            (by intro a b hab; cases hab)
          · refine noFin_setVar hnf ?_ _
            intro ft hft
            cases hft
          · intro v t hvt
            cases hvt
            exact rootLike_setVar_ne hra (Ne.symm hne)

/-! ## `from_var` specification (width invariant, error classification) -/

/-- The bit-width recurrence as the source computes it: a finalized
type is `valid` when every cached width is `0` for unit, `1 + max` of
the children's widths for a sum, and the sum of the children's widths
for a product — each reduced modulo `2 ^ 64`, since the source stores
widths in a `usize` and the arithmetic wraps on overflow. -/
def FinalType.valid : FinalType → Prop
  | .mk .unit w => w = 0
  | .mk (.sum a b) w =>
    w = (1 + max a.bit_width b.bit_width) % usizeMod ∧ a.valid ∧ b.valid
  | .mk (.product a b) w =>
    w = (a.bit_width + b.bit_width) % usizeMod ∧ a.valid ∧ b.valid

/-- Every `Finalized` variable in the arena stores a `valid` type. -/
def StValid (s : St) : Prop :=
  ∀ (i : Nat) (u : UnificationVar), s[i]? = some u →
    ∀ ft, u.var = .Finalized ft → ft.valid

theorem noFin_stValid {s : St} (h : NoFin s) : StValid s :=
  fun i u hu ft hft => absurd hft (h i u hu ft)

theorem stValid_setVar {s : St} {v : UnificationVar}
    (hs : StValid s) (hv : ∀ ft, v.var = .Finalized ft → ft.valid)
    (i : Nat) : StValid (setVar s i v) := by
  intro j u hj ft hft
  rw [getElem?_setVar] at hj
  split at hj
  · cases hj; exact hv ft hft
  · exact hs _ _ hj ft hft

/-- `find_root` preserves `StValid` (its only write is an `EqualTo`). -/
theorem find_root_stValid : ∀ (f n : Nat) (s : St) (r : Nat) (s' : St),
    find_root f n s = .ok (r, s') → StValid s → StValid s' := by
  intro f
  induction f with
  | zero =>
    intro n s r s' h
    simp only [find_root] at h
    cases h
  | succ f ih =>
    intro n s r s' h hs
    simp only [find_root] at h
    cases hn : s[n]? with
    | none => simp only [hn] at h; cases h
    | some u =>
      simp only [hn] at h
      cases hv : u.var with
      | Free => simp only [hv] at h; cases h; exact hs
      | Bound ty oc => simp only [hv] at h; cases h; exact hs
      | Finalized ft => simp only [hv] at h; cases h; exact hs
      | EqualTo parent =>
        simp only [hv] at h
        cases hp : s[parent]? with
        | none => simp only [hp] at h; cases h
        | some pu =>
          simp only [hp] at h
          cases hpv : pu.var with
          | EqualTo gp =>
            simp only [hpv] at h
            refine ih _ _ _ _ h ?_
            exact stValid_setVar hs (by intro ft hft; cases hft) n
          | Free => simp only [hpv] at h; exact ih _ _ _ _ h hs
          | Bound ty oc => simp only [hpv] at h; exact ih _ _ _ _ h hs
          | Finalized ft => simp only [hpv] at h; exact ih _ _ _ _ h hs

/-- The post-condition of `from_var`: a successful run returns a type
satisfying the width recurrence and keeps every finalized arena entry
valid; a failing run fails with fuel exhaustion, an out-of-bounds panic,
the `EqualTo`-representative panic, or `OccursCheck` — never with any
other error (in particular never with `PanicBind`: finalization calls
`bind` nowhere). -/
def FromVarOk (r : Except Err (FinalType × St)) : Prop :=
  (∀ t s', r = .ok (t, s') → t.valid ∧ StValid s') ∧
    (∀ e, r = .error e → e = .OutOfFuel ∨ e = .PanicIndex ∨
      e = .PanicFromVar ∨ e = .OccursCheck)

theorem fromVarOk_error {e : Err}
    (h : e = .OutOfFuel ∨ e = .PanicIndex ∨ e = .PanicFromVar ∨
      e = .OccursCheck) : FromVarOk (.error e) := by
  constructor
  · intro t s' hc; cases hc
  · intro e' hc
    injection hc with he
    subst he
    exact h

theorem fromVarOk_ok {t : FinalType} {s' : St}
    (h1 : t.valid) (h2 : StValid s') : FromVarOk (.ok (t, s')) := by
  constructor
  · intro t0 s0 hc
    injection hc with hp
    injection hp with h3 h4
    subst h3
    subst h4
    exact ⟨h1, h2⟩
  · intro e hc; cases hc

theorem childResolve_spec {f : Nat}
    (ih : ∀ (v : Nat) (s : St), StValid s → FromVarOk (from_var f v s))
    {sB : St} {r1 : Nat} {u1 : UnificationVar}
    (h1 : sB[r1]? = some u1) (hsB : StValid sB) :
    FromVarOk (childResolve (from_var f r1 sB) u1.var sB) := by
  cases hu1 : u1.var with
  | Free =>
    simp only [childResolve]
    exact fromVarOk_ok rfl hsB
  | Bound t1 o1 =>
    simp only [childResolve]
    exact ih r1 sB hsB
  | EqualTo p =>
    simp only [childResolve]
    exact fromVarOk_error (.inr (.inr (.inl rfl)))
  | Finalized f1 =>
    simp only [childResolve]
    exact fromVarOk_ok (hsB _ _ h1 f1 hu1) hsB

theorem from_var_spec : ∀ (f v : Nat) (s : St), StValid s →
    FromVarOk (from_var f v s) := by
  intro f
  induction f with
  | zero =>
    intro v s hs
    simp only [from_var]
    exact fromVarOk_error (.inl rfl)
  | succ f ih =>
    intro v s hs
    simp only [from_var]
    cases hfr : find_root f v s with
    | error e =>
      simp only [hfr]
      exact fromVarOk_error ((find_root_error _ _ _ _ hfr).imp id .inl)
    | ok p1 =>
      obtain ⟨var, s1⟩ := p1
      simp only [hfr]
      have hs1 : StValid s1 := find_root_stValid _ _ _ _ _ hfr hs
      cases hv1 : s1[var]? with
      | none =>
        simp only [hv1]
        exact fromVarOk_error (.inr (.inl rfl))
      | some u =>
        simp only [hv1]
        cases hu : u.var with
        | Finalized done =>
          simp only [hu]
          exact fromVarOk_ok (hs1 _ _ hv1 done hu) hs1
        | EqualTo p =>
          simp only [hu]
          exact fromVarOk_error (.inr (.inr (.inl rfl)))
        | Free =>
          simp only [hu]
          exact fromVarOk_ok rfl
            (stValid_setVar hs1 (by intro ft hft; cases hft; exact rfl) _)
        | Bound ty oc =>
          simp only [hu]
          cases oc with
          | true => exact fromVarOk_error (.inr (.inr (.inr rfl)))
          | false =>
            cases ty with
            | unit =>
              exact fromVarOk_ok rfl
                (stValid_setVar
                  (stValid_setVar hs1 (by intro ft hft; cases hft) _)
                  (by intro ft hft; cases hft; exact rfl) _)
            | sum sub1 sub2 =>
              cases hA : find_root f sub1
                  (setVar s1 var ⟨.Bound (.sum sub1 sub2) true, u.rank⟩) with
              | error e =>
                simp only [hA]
                exact fromVarOk_error
                  ((find_root_error _ _ _ _ hA).imp id .inl)
              | ok pA =>
                obtain ⟨r1, sA⟩ := pA
                simp only [hA]
                have hsA : StValid sA :=
                  find_root_stValid _ _ _ _ _ hA
                    (stValid_setVar hs1 (by intro ft hft; cases hft) _)
                cases hB : find_root f sub2 sA with
                | error e =>
                  simp only [hB]
                  exact fromVarOk_error
                    ((find_root_error _ _ _ _ hB).imp id .inl)
                | ok pB =>
                  obtain ⟨r2, sB⟩ := pB
                  simp only [hB]
                  have hsB : StValid sB := find_root_stValid _ _ _ _ _ hB hsA
                  cases h1 : sB[r1]? with
                  | none =>
                    simp only [h1]
                    exact fromVarOk_error (.inr (.inl rfl))
                  | some u1 =>
                    simp only [h1]
                    cases hres1 : childResolve (from_var f r1 sB) u1.var sB with
                    | error e =>
                      simp only [hres1]
                      exact fromVarOk_error
                        ((childResolve_spec ih h1 hsB).2 e hres1)
                    | ok pC =>
                      obtain ⟨final1, sC⟩ := pC
                      simp only [hres1]
                      obtain ⟨hval1, hsC⟩ :=
                        (childResolve_spec ih h1 hsB).1 final1 sC hres1
                      cases h2 : sC[r2]? with
                      | none =>
                        simp only [h2]
                        exact fromVarOk_error (.inr (.inl rfl))
                      | some u2 =>
                        simp only [h2]
                        cases hres2 : childResolve (from_var f r2 sC)
                            u2.var sC with
                        | error e =>
                          simp only [hres2]
                          exact fromVarOk_error
                            ((childResolve_spec ih h2 hsC).2 e hres2)
                        | ok pD =>
                          obtain ⟨final2, sD⟩ := pD
                          simp only [hres2]
                          obtain ⟨hval2, hsD⟩ :=
                            (childResolve_spec ih h2 hsC).1 final2 sD hres2
                          cases hvend : sD[var]? with
                          | none =>
                            simp only [hvend]
                            exact fromVarOk_error (.inr (.inl rfl))
                          | some uv =>
                            simp only [hvend]
                            refine fromVarOk_ok ⟨rfl, hval1, hval2⟩ ?_
                            refine stValid_setVar hsD ?_ _
                            intro ft hft
                            cases hft
                            exact ⟨rfl, hval1, hval2⟩
            | product sub1 sub2 =>
              cases hA : find_root f sub1
                  (setVar s1 var ⟨.Bound (.product sub1 sub2) true, u.rank⟩) with
              | error e =>
                simp only [hA]
                exact fromVarOk_error
                  ((find_root_error _ _ _ _ hA).imp id .inl)
              | ok pA =>
                obtain ⟨r1, sA⟩ := pA
                simp only [hA]
                have hsA : StValid sA :=
                  find_root_stValid _ _ _ _ _ hA
                    (stValid_setVar hs1 (by intro ft hft; cases hft) _)
                cases hB : find_root f sub2 sA with
                | error e =>
                  simp only [hB]
                  exact fromVarOk_error
                    ((find_root_error _ _ _ _ hB).imp id .inl)
                | ok pB =>
                  obtain ⟨r2, sB⟩ := pB
                  simp only [hB]
                  have hsB : StValid sB := find_root_stValid _ _ _ _ _ hB hsA
                  cases h1 : sB[r1]? with
                  | none =>
                    simp only [h1]
                    exact fromVarOk_error (.inr (.inl rfl))
                  | some u1 =>
                    simp only [h1]
                    cases hres1 : childResolve (from_var f r1 sB) u1.var sB with
                    | error e =>
                      simp only [hres1]
                      exact fromVarOk_error
                        ((childResolve_spec ih h1 hsB).2 e hres1)
                    | ok pC =>
                      obtain ⟨final1, sC⟩ := pC
                      simp only [hres1]
                      obtain ⟨hval1, hsC⟩ :=
                        (childResolve_spec ih h1 hsB).1 final1 sC hres1
                      cases h2 : sC[r2]? with
                      | none =>
                        simp only [h2]
                        exact fromVarOk_error (.inr (.inl rfl))
                      | some u2 =>
                        simp only [h2]
                        cases hres2 : childResolve (from_var f r2 sC)
                            u2.var sC with
                        | error e =>
                          simp only [hres2]
                          exact fromVarOk_error
                            ((childResolve_spec ih h2 hsC).2 e hres2)
                        | ok pD =>
                          obtain ⟨final2, sD⟩ := pD
                          simp only [hres2]
                          obtain ⟨hval2, hsD⟩ :=
                            (childResolve_spec ih h2 hsC).1 final2 sD hres2
                          cases hvend : sD[var]? with
                          | none =>
                            simp only [hvend]
                            exact fromVarOk_error (.inr (.inl rfl))
                          | some uv =>
                            simp only [hvend]
                            refine fromVarOk_ok ⟨rfl, hval1, hval2⟩ ?_
                            refine stValid_setVar hsD ?_ _
                            intro ft hft
                            cases hft
                            exact ⟨rfl, hval1, hval2⟩

/-! ## `addConstraints` specification -/

theorem unify_ok_inv {f a b : Nat} {s : St} {u : Unit} {s' : St}
    (h : unify f a b s = .ok (u, s')) :
    s'.size = s.size ∧ (NoFin s → NoFin s') ∧ (RB s → RB s') ∧
      (∀ m, Fresh s m → a ≠ m → b ≠ m → Fresh s' m) := by
  obtain ⟨h1, h2, h3, h4⟩ := unifyStep_spec _ _ _ _ _ h
  exact ⟨h1, h2, fun hrb => h3 hrb trivial,
    fun m hm ha hb => h4 m hm ⟨ha, hb⟩⟩

theorem unify_no_pb {f a b : Nat} {s : St} (hnf : NoFin s) :
    unify f a b s ≠ .error .PanicBind :=
  unifyStep_no_panicBind f (.unifyOp a b) s hnf
    (by intro v t hvt; cases hvt) (by intro x y hxy; cases hxy)

theorem bind_ok_inv {f v : Nat} {ty : Ty} {s : St} {u : Unit} {s' : St}
    (h : bind f v ty s = .ok (u, s')) :
    s'.size = s.size ∧ (NoFin s → NoFin s') ∧
      (RB s → (∀ m, tyMentions ty m → m < s.size) → RB s') ∧
      (∀ m, Fresh s m → v ≠ m → ¬ tyMentions ty m → Fresh s' m) := by
  obtain ⟨h1, h2, h3, h4⟩ := unifyStep_spec _ _ _ _ _ h
  exact ⟨h1, h2, h3, fun m hm ha hb => h4 m hm ⟨ha, hb⟩⟩

theorem bind_no_pb {f v : Nat} {ty : Ty} {s : St}
    (hnf : NoFin s) (hv : RootLike s v) :
    bind f v ty s ≠ .error .PanicBind :=
  unifyStep_no_panicBind f (.bindOp v ty) s hnf
    (by intro v' t hvt; cases hvt; exact hv) (by intro x y hxy; cases hxy)

theorem err_ne {X : Except Err (Unit × St)} {e : Err}
    (hne : X ≠ .error .PanicBind) (hX : X = .error e) :
    e ≠ .PanicBind := fun h => hne (h ▸ hX)

/-- The two initial-state facts: the prebuilt skeleton arena has no
finalized entry and references only in-bounds skeleton indices. -/
theorem noFin_initState : NoFin initState := by
  intro i u hu ft hft
  have h12 : i < 12 := by
    have := lt_of_getElem?_some hu
    simpa [initState] using this
  interval_cases i <;>
    (simp [initState] at hu; subst hu;
     simp [UnificationVar.concrete] at hft)

theorem rb_initState : RB initState := by
  intro i u hu m hm
  have h12 : i < 12 := by
    have := lt_of_getElem?_some hu
    simpa [initState] using this
  have hsz : initState.size = 12 := by simp [initState]
  rw [hsz]
  interval_cases i <;>
    (simp [initState] at hu; subst hu;
     simp [UnificationVar.concrete, mentions, tyMentions] at hm) <;>
    omega

theorem tfn_lt (name : TypeName) (m : Nat)
    (h : tyMentions (type_from_name name) m) : m < 12 := by
  cases name <;> simp [type_from_name, tyMentions] at h <;> omega

/-- Post-condition bundle for one constraint-generation step starting
from an arena of size `szIn`: no `PanicBind` panic is possible, and on
success the invariants survive, the arena only grows, and the returned
arrow is in bounds. -/
def ACOk (szIn : Nat) (r : Except Err (UnificationArrow × St)) : Prop :=
  (∀ e, r = .error e → e ≠ .PanicBind) ∧
    (∀ arrow s', r = .ok (arrow, s') →
      NoFin s' ∧ RB s' ∧ szIn ≤ s'.size ∧
      arrow.source < s'.size ∧ arrow.target < s'.size)

theorem acok_error {szIn : Nat} {e : Err} (h : e ≠ .PanicBind) :
    ACOk szIn (.error e) := by
  constructor
  · intro e' hc
    injection hc with he
    subst he
    exact h
  · intro arrow s' hc; cases hc

theorem acok_ok {szIn : Nat} {arrow : UnificationArrow} {s' : St}
    (h1 : NoFin s') (h2 : RB s') (h3 : szIn ≤ s'.size)
    (h4 : arrow.source < s'.size) (h5 : arrow.target < s'.size) :
    ACOk szIn (.ok (arrow, s')) := by
  constructor
  · intro e hc; cases hc
  · intro a0 s0 hc
    injection hc with hp
    injection hp with ha hs
    subst ha
    subst hs
    exact ⟨h1, h2, h3, h4, h5⟩

theorem free_not_fin : ∀ ft, (UnificationVar.free).var ≠ .Finalized ft := by
  intro ft h
  cases h

theorem free_no_mentions : ∀ m, ¬ mentions (UnificationVar.free).var m := by
  intro m h
  cases h

/-- Post-condition bundle for one `Case` child branch (the `branch`
closure inside the `Case` arm): no `PanicBind`, and on success the
invariants survive with the arena size unchanged. -/
def BrOk (szIn : Nat) (r : Except Err (Unit × St)) : Prop :=
  (∀ e, r = .error e → e ≠ .PanicBind) ∧
    (∀ (u : Unit) (s' : St), r = .ok (u, s') →
      NoFin s' ∧ RB s' ∧ s'.size = szIn)

theorem brok_error {szIn : Nat} {e : Err} (h : e ≠ .PanicBind) :
    BrOk szIn (.error e) := by
  constructor
  · intro e' hc
    injection hc with he
    subst he
    exact h
  · intro u s' hc; cases hc

theorem brok_ok {szIn : Nat} {u : Unit} {s' : St}
    (h1 : NoFin s') (h2 : RB s') (h3 : s'.size = szIn) :
    BrOk szIn (.ok (u, s')) := by
  constructor
  · intro e hc; cases hc
  · intro u0 s0 hc
    injection hc with hp
    injection hp with ha hs
    subst hs
    exact ⟨h1, h2, h3⟩

theorem caseBranch_spec {W : Type} (fuel : Nat)
    (program : Array (Term W)) (rcs : Array UnificationArrow)
    (var3 tgtIdx childVar : Nat) (childIdx : Nat) (st : St)
    (hnf : NoFin st) (hrb : RB st)
    (hcv : childVar < st.size) (hv3 : var3 < st.size) :
    BrOk st.size (caseBranch fuel program rcs var3 tgtIdx childVar
      childIdx st) := by
  rw [caseBranch]
  cases hpi : program[childIdx]? with
  | none => exact brok_error (by intro h; cases h)
  | some tv =>
    split
    · rename_i heq
      cases heq
    · exact brok_ok hnf hrb rfl
    · cases hrc : rcs[childIdx]? with
      | none =>
        simp only [hrc]
        exact brok_error (by intro h; cases h)
      | some rc =>
        simp only [hrc]
        cases hfr : find_root fuel rc.source st with
        | error e =>
          simp only [hfr]
          refine brok_error ?_
          rcases find_root_error _ _ _ _ hfr with h | h <;>
            (subst h; intro hc; cases hc)
        | ok p1 =>
          obtain ⟨root, st1⟩ := p1
          simp only [hfr]
          obtain ⟨hsz1, -, hnf1, hrb1, -, -⟩ := find_root_spec _ _ _ _ _ hfr
          have hroot : RootLike st1 root := find_root_rootLike hfr
          cases hbn : bind fuel root (.product childVar var3) st1 with
          | error e =>
            simp only [hbn]
            exact brok_error (err_ne (bind_no_pb (hnf1 hnf) hroot) hbn)
          | ok p2 =>
            obtain ⟨u2, st2⟩ := p2
            simp only [hbn]
            obtain ⟨hsz2, hnf2, hrb2, -⟩ := bind_ok_inv hbn
            cases hun : unify fuel tgtIdx rc.target st2 with
            | error e =>
              exact brok_error (err_ne (unify_no_pb (hnf2 (hnf1 hnf))) hun)
            | ok p3 =>
              obtain ⟨u3, st3⟩ := p3
              obtain ⟨hsz3, hnf3, hrb3, -⟩ := unify_ok_inv hun
              refine brok_ok (hnf3 (hnf2 (hnf1 hnf))) ?_ (by omega)
              refine hrb3 ?_
              refine hrb2 (hrb1 hrb) ?_
              intro m hm
              rcases hm with h | h <;> subst h <;> omega

theorem addConstraints_spec {W : Type} (fuel : Nat)
    (program : Array (Term W)) (rcs : Array UnificationArrow)
    (t : Term W) (s : St)
    (hnf : NoFin s) (hrb : RB s) (h12 : 12 ≤ s.size)
    (hrcs : ∀ (k : Nat) (a : UnificationArrow), rcs[k]? = some a →
      a.source < s.size ∧ a.target < s.size) :
    ACOk s.size (addConstraints fuel program rcs t s) := by
  have hnfA : NoFin (s.push .free) := noFin_push hnf free_not_fin
  have hrbA : RB (s.push .free) :=
    rb_push hrb (by intro m hm; cases hm)
  have hnfB : NoFin ((s.push .free).push .free) :=
    noFin_push hnfA free_not_fin
  have hrbB : RB ((s.push .free).push .free) :=
    rb_push hrbA (by intro m hm; cases hm)
  have hfrS : Fresh ((s.push .free).push .free) s.size :=
    fresh_push (fresh_newVar hrb) (free_no_mentions _)
  have hfrT : Fresh ((s.push .free).push .free) (s.size + 1) := by
    have := fresh_newVar hrbA
    rwa [Array.size_push] at this
  cases t with
  | Iden =>
    simp only [addConstraints, newVar, Array.size_push]
    split
    next e heq => exact acok_error (err_ne (unify_no_pb hnfB) heq)
    next u1 s1 heq =>
      obtain ⟨hsz, hnf1, hrb1, -⟩ := unify_ok_inv heq
      have hsz' : s1.size = s.size + 2 := by
        rw [hsz]; simp [Array.size_push]
      exact acok_ok (hnf1 hnfB) (hrb1 hrbB) (by omega)
        (by first | omega | (simp <;> omega)) (by first | omega | (simp <;> omega))
  | Unit =>
    simp only [addConstraints, newVar, Array.size_push]
    split
    next e heq =>
      exact acok_error (err_ne (bind_no_pb hnfB (fresh_rootLike hfrT)) heq)
    next u1 s1 heq =>
      obtain ⟨hsz, hnf1, hrb1, -⟩ := bind_ok_inv heq
      have hsz' : s1.size = s.size + 2 := by
        rw [hsz]; simp [Array.size_push]
      refine acok_ok (hnf1 hnfB) ?_ (by omega)
        (by first | omega | (simp <;> omega)) (by first | omega | (simp <;> omega))
      exact hrb1 hrbB (by intro m hm; cases hm)
  | InjL i =>
    simp only [addConstraints, newVar, Array.size_push]
    cases hri : rcs[i]? with
    | none =>
      simp only [hri]
      exact acok_error (by intro h; cases h)
    | some rci =>
      simp only [hri]
      obtain ⟨hbs, hbt⟩ := hrcs i rci hri
      split
      next e heq => exact acok_error (err_ne (unify_no_pb hnfB) heq)
      next u1 s1 heq =>
        obtain ⟨hsz1, hnf1, hrb1, hfr1⟩ := unify_ok_inv heq
        have hsz1' : s1.size = s.size + 2 := by
          rw [hsz1]; simp [Array.size_push]
        have hfrT1 : Fresh s1 (s.size + 1) :=
          hfr1 _ hfrT (by omega) (by omega)
        have hfrT2 : Fresh (s1.push .free) (s.size + 1) :=
          fresh_push hfrT1 (free_no_mentions _)
        have hnf2 : NoFin (s1.push .free) :=
          noFin_push (hnf1 hnfB) free_not_fin
        have hrb2 : RB (s1.push .free) :=
          rb_push (hrb1 hrbB) (by intro m hm; cases hm)
        split
        next e heq2 =>
          exact acok_error
            (err_ne (bind_no_pb hnf2 (fresh_rootLike hfrT2)) heq2)
        next u2 s2 heq2 =>
          obtain ⟨hsz2, hnf3, hrb3, -⟩ := bind_ok_inv heq2
          have hsz2' : s2.size = s.size + 3 := by
            rw [hsz2]; simp [Array.size_push, hsz1']
          refine acok_ok (hnf3 hnf2) ?_ (by omega) (by first | omega | (simp <;> omega)) (by first | omega | (simp <;> omega))
          refine hrb3 hrb2 ?_
          intro m hm
          simp [tyMentions] at hm
          rcases hm with h | h <;> subst h <;> first | omega | (simp <;> omega)
  | InjR i =>
    simp only [addConstraints, newVar, Array.size_push]
    cases hri : rcs[i]? with
    | none =>
      simp only [hri]
      exact acok_error (by intro h; cases h)
    | some rci =>
      simp only [hri]
      obtain ⟨hbs, hbt⟩ := hrcs i rci hri
      split
      next e heq => exact acok_error (err_ne (unify_no_pb hnfB) heq)
      next u1 s1 heq =>
        obtain ⟨hsz1, hnf1, hrb1, hfr1⟩ := unify_ok_inv heq
        have hsz1' : s1.size = s.size + 2 := by
          rw [hsz1]; simp [Array.size_push]
        have hfrT1 : Fresh s1 (s.size + 1) :=
          hfr1 _ hfrT (by omega) (by omega)
        have hfrT2 : Fresh (s1.push .free) (s.size + 1) :=
          fresh_push hfrT1 (free_no_mentions _)
        have hnf2 : NoFin (s1.push .free) :=
          noFin_push (hnf1 hnfB) free_not_fin
        have hrb2 : RB (s1.push .free) :=
          rb_push (hrb1 hrbB) (by intro m hm; cases hm)
        split
        next e heq2 =>
          exact acok_error
            (err_ne (bind_no_pb hnf2 (fresh_rootLike hfrT2)) heq2)
        next u2 s2 heq2 =>
          obtain ⟨hsz2, hnf3, hrb3, -⟩ := bind_ok_inv heq2
          have hsz2' : s2.size = s.size + 3 := by
            rw [hsz2]; simp [Array.size_push, hsz1']
          refine acok_ok (hnf3 hnf2) ?_ (by omega) (by first | omega | (simp <;> omega)) (by first | omega | (simp <;> omega))
          refine hrb3 hrb2 ?_
          intro m hm
          simp [tyMentions] at hm
          rcases hm with h | h <;> subst h <;> first | omega | (simp <;> omega)
  | Take i =>
    simp only [addConstraints, newVar, Array.size_push]
    cases hri : rcs[i]? with
    | none =>
      simp only [hri]
      exact acok_error (by intro h; cases h)
    | some rci =>
      simp only [hri]
      obtain ⟨hbs, hbt⟩ := hrcs i rci hri
      split
      next e heq => exact acok_error (err_ne (unify_no_pb hnfB) heq)
      next u1 s1 heq =>
        obtain ⟨hsz1, hnf1, hrb1, hfr1⟩ := unify_ok_inv heq
        have hsz1' : s1.size = s.size + 2 := by
          rw [hsz1]; simp [Array.size_push]
        have hfrT1 : Fresh s1 (s.size + 0) :=
          hfr1 _ hfrS (by omega) (by omega)
        have hfrT2 : Fresh (s1.push .free) (s.size + 0) :=
          fresh_push hfrT1 (free_no_mentions _)
        have hnf2 : NoFin (s1.push .free) :=
          noFin_push (hnf1 hnfB) free_not_fin
        have hrb2 : RB (s1.push .free) :=
          rb_push (hrb1 hrbB) (by intro m hm; cases hm)
        split
        next e heq2 =>
          exact acok_error
            (err_ne (bind_no_pb hnf2 (fresh_rootLike hfrT2)) heq2)
        next u2 s2 heq2 =>
          obtain ⟨hsz2, hnf3, hrb3, -⟩ := bind_ok_inv heq2
          have hsz2' : s2.size = s.size + 3 := by
            rw [hsz2]; simp [Array.size_push, hsz1']
          refine acok_ok (hnf3 hnf2) ?_ (by omega) (by first | omega | (simp <;> omega)) (by first | omega | (simp <;> omega))
          refine hrb3 hrb2 ?_
          intro m hm
          simp [tyMentions] at hm
          rcases hm with h | h <;> subst h <;> first | omega | (simp <;> omega)
  | Drop i =>
    simp only [addConstraints, newVar, Array.size_push]
    cases hri : rcs[i]? with
    | none =>
      simp only [hri]
      exact acok_error (by intro h; cases h)
    | some rci =>
      simp only [hri]
      obtain ⟨hbs, hbt⟩ := hrcs i rci hri
      split
      next e heq => exact acok_error (err_ne (unify_no_pb hnfB) heq)
      next u1 s1 heq =>
        obtain ⟨hsz1, hnf1, hrb1, hfr1⟩ := unify_ok_inv heq
        have hsz1' : s1.size = s.size + 2 := by
          rw [hsz1]; simp [Array.size_push]
        have hfrT1 : Fresh s1 (s.size + 0) :=
          hfr1 _ hfrS (by omega) (by omega)
        have hfrT2 : Fresh (s1.push .free) (s.size + 0) :=
          fresh_push hfrT1 (free_no_mentions _)
        have hnf2 : NoFin (s1.push .free) :=
          noFin_push (hnf1 hnfB) free_not_fin
        have hrb2 : RB (s1.push .free) :=
          rb_push (hrb1 hrbB) (by intro m hm; cases hm)
        split
        next e heq2 =>
          exact acok_error
            (err_ne (bind_no_pb hnf2 (fresh_rootLike hfrT2)) heq2)
        next u2 s2 heq2 =>
          obtain ⟨hsz2, hnf3, hrb3, -⟩ := bind_ok_inv heq2
          have hsz2' : s2.size = s.size + 3 := by
            rw [hsz2]; simp [Array.size_push, hsz1']
          refine acok_ok (hnf3 hnf2) ?_ (by omega) (by first | omega | (simp <;> omega)) (by first | omega | (simp <;> omega))
          refine hrb3 hrb2 ?_
          intro m hm
          simp [tyMentions] at hm
          rcases hm with h | h <;> subst h <;> first | omega | (simp <;> omega)
  | Comp i j =>
    simp only [addConstraints, newVar, Array.size_push]
    cases hri : rcs[i]? with
    | none =>
      simp only [hri]
      exact acok_error (by intro h; cases h)
    | some rci =>
      simp only [hri]
      cases hrj : rcs[j]? with
      | none => simp only [hrj]; exact acok_error (by intro h; cases h)
      | some rcj =>
        simp only [hrj]
        obtain ⟨hbs, hbt⟩ := hrcs i rci hri
        obtain ⟨hbs2, hbt2⟩ := hrcs j rcj hrj
        split
        next e heq => exact acok_error (err_ne (unify_no_pb hnfB) heq)
        next u1 s1 heq =>
          obtain ⟨hsz1, hnf1, hrb1, -⟩ := unify_ok_inv heq
          split
          next e heq2 =>
            exact acok_error (err_ne (unify_no_pb (hnf1 hnfB)) heq2)
          next u2 s2 heq2 =>
            obtain ⟨hsz2, hnf2, hrb2, -⟩ := unify_ok_inv heq2
            split
            next e heq3 =>
              exact acok_error (err_ne (unify_no_pb (hnf2 (hnf1 hnfB))) heq3)
            next u3 s3 heq3 =>
              obtain ⟨hsz3, hnf3, hrb3, -⟩ := unify_ok_inv heq3
              have hsz : s3.size = s.size + 2 := by
                rw [hsz3, hsz2, hsz1]; simp [Array.size_push]
              exact acok_ok (hnf3 (hnf2 (hnf1 hnfB)))
                (hrb3 (hrb2 (hrb1 hrbB))) (by omega)
                (by first | omega | (simp <;> omega)) (by first | omega | (simp <;> omega))
  | Case i j =>
    simp only [addConstraints, newVar, Array.size_push]
    have hnf6p : NoFin (((((((s.push .free).push .free).push .free).push
        .free).push .free).push .free)) :=
      noFin_push (noFin_push (noFin_push (noFin_push hnfB
        free_not_fin) free_not_fin) free_not_fin) free_not_fin
    have hrb5p : RB ((((((s.push .free).push .free).push .free).push
        .free).push .free)) :=
      rb_push (rb_push (rb_push hrbB (by intro m hm; cases hm))
        (by intro m hm; cases hm)) (by intro m hm; cases hm)
    have hrb6p : RB (((((((s.push .free).push .free).push .free).push
        .free).push .free).push .free)) :=
      rb_push hrb5p (by intro m hm; cases hm)
    have hfrSum : Fresh (((((((s.push .free).push .free).push
        .free).push .free).push .free).push .free))
        (s.size + 1 + 1 + 1 + 1 + 1) := by
      have h := fresh_newVar hrb5p
      simp only [Array.size_push] at h
      exact h
    have hfrSrc6 : Fresh (((((((s.push .free).push .free).push
        .free).push .free).push .free).push .free)) s.size :=
      fresh_push (fresh_push (fresh_push (fresh_push hfrS
        (free_no_mentions _)) (free_no_mentions _))
        (free_no_mentions _)) (free_no_mentions _)
    split
    next e heq =>
      exact acok_error
        (err_ne (bind_no_pb hnf6p (fresh_rootLike hfrSum)) heq)
    next u5 s5 heq =>
      obtain ⟨hsz5, hnf5, hrb5, hfr5⟩ := bind_ok_inv heq
      have hsz5' : s5.size = s.size + 6 := by
        rw [hsz5]; simp [Array.size_push]
      have hfrSrc5 : Fresh s5 s.size := by
        refine hfr5 _ hfrSrc6 (by omega) ?_
        intro hc
        simp [tyMentions] at hc
        omega
      split
      next e heq2 =>
        exact acok_error
          (err_ne (bind_no_pb (hnf5 hnf6p) (fresh_rootLike hfrSrc5)) heq2)
      next u6 s6 heq2 =>
        obtain ⟨hsz6, hnf6, hrb6, -⟩ := bind_ok_inv heq2
        have hsz6' : s6.size = s.size + 6 := by rw [hsz6]; omega
        have hnfS6 : NoFin s6 := hnf6 (hnf5 hnf6p)
        have hrbS6 : RB s6 := by
          refine hrb6 ?_ ?_
          · refine hrb5 hrb6p ?_
            intro m hm
            simp [tyMentions] at hm
            rcases hm with h | h <;> subst h <;>
              first | omega | (simp <;> omega)
          · intro m hm
            simp [tyMentions] at hm
            rcases hm with h | h <;> subst h <;> omega
        split
        next e heq3 =>
          exact acok_error ((caseBranch_spec fuel program rcs
            (s.size + 1 + 1 + 1 + 1) (s.size + 1) (s.size + 1 + 1)
            i s6 hnfS6 hrbS6 (by omega) (by omega)).1 e heq3)
        next u7 s7 heq3 =>
          obtain ⟨hnf7, hrb7, hsz7⟩ := (caseBranch_spec fuel program rcs
            (s.size + 1 + 1 + 1 + 1) (s.size + 1) (s.size + 1 + 1)
            i s6 hnfS6 hrbS6
            (by omega) (by omega)).2 u7 s7 heq3
          split
          next e heq4 =>
            exact acok_error ((caseBranch_spec fuel program rcs
              (s.size + 1 + 1 + 1 + 1) (s.size + 1)
              (s.size + 1 + 1 + 1) j s7 hnf7 hrb7
              (by omega) (by omega)).1 e heq4)
          next u8 s8 heq4 =>
            obtain ⟨hnf8, hrb8, hsz8⟩ := (caseBranch_spec fuel program rcs
              (s.size + 1 + 1 + 1 + 1) (s.size + 1)
              (s.size + 1 + 1 + 1) j s7 hnf7 hrb7
              (by omega) (by omega)).2 u8 s8 heq4
            exact acok_ok hnf8 hrb8 (by omega) (by first | omega | (simp <;> omega)) (by first | omega | (simp <;> omega))
  | Pair i j =>
    simp only [addConstraints, newVar, Array.size_push]
    cases hri : rcs[i]? with
    | none =>
      simp only [hri]
      exact acok_error (by intro h; cases h)
    | some rci =>
      simp only [hri]
      cases hrj : rcs[j]? with
      | none => simp only [hrj]; exact acok_error (by intro h; cases h)
      | some rcj =>
        simp only [hrj]
        obtain ⟨hbs, hbt⟩ := hrcs i rci hri
        obtain ⟨hbs2, hbt2⟩ := hrcs j rcj hrj
        split
        next e heq => exact acok_error (err_ne (unify_no_pb hnfB) heq)
        next u1 s1 heq =>
          obtain ⟨hsz1, hnf1, hrb1, hfr1⟩ := unify_ok_inv heq
          have hfrT1 : Fresh s1 (s.size + 1) :=
            hfr1 _ hfrT (by omega) (by omega)
          split
          next e heq2 =>
            exact acok_error (err_ne (unify_no_pb (hnf1 hnfB)) heq2)
          next u2 s2 heq2 =>
            obtain ⟨hsz2, hnf2, hrb2, hfr2⟩ := unify_ok_inv heq2
            have hfrT2 : Fresh s2 (s.size + 1) :=
              hfr2 _ hfrT1 (by omega) (by omega)
            split
            next e heq3 =>
              exact acok_error
                (err_ne (bind_no_pb (hnf2 (hnf1 hnfB))
                  (fresh_rootLike hfrT2)) heq3)
            next u3 s3 heq3 =>
              obtain ⟨hsz3, hnf3, hrb3, -⟩ := bind_ok_inv heq3
              have hsz : s3.size = s.size + 2 := by
                rw [hsz3, hsz2, hsz1]; simp [Array.size_push]
              refine acok_ok (hnf3 (hnf2 (hnf1 hnfB))) ?_ (by omega)
                (by first | omega | (simp <;> omega)) (by first | omega | (simp <;> omega))
              refine hrb3 (hrb2 (hrb1 hrbB)) ?_
              intro m hm
              simp [tyMentions] at hm
              rcases hm with h | h <;> subst h <;>
                first | omega | (simp <;> omega)
  | Disconnect i j =>
    simp only [addConstraints, newVar, into_rcvar, Array.size_push]
    cases hri : rcs[i]? with
    | none =>
      simp only [hri]
      exact acok_error (by intro h; cases h)
    | some rci =>
      simp only [hri]
      cases hrj : rcs[j]? with
      | none => simp only [hrj]; exact acok_error (by intro h; cases h)
      | some rcj =>
        simp only [hrj]
        obtain ⟨hbs, hbt⟩ := hrcs i rci hri
        obtain ⟨hbs2, hbt2⟩ := hrcs j rcj hrj
        have hnf6p : NoFin (((((((s.push .free).push .free).push
            .free).push .free).push .free).push .free)) :=
          noFin_push (noFin_push (noFin_push (noFin_push hnfB
            free_not_fin) free_not_fin) free_not_fin) free_not_fin
        have hrb6p : RB (((((((s.push .free).push .free).push .free).push
            .free).push .free).push .free)) :=
          rb_push (rb_push (rb_push (rb_push hrbB
            (by intro m hm; cases hm)) (by intro m hm; cases hm))
            (by intro m hm; cases hm)) (by intro m hm; cases hm)
        have hnf8p : NoFin ((((((((s.push .free).push .free).push
            .free).push .free).push .free).push .free).push
            (.concrete (.product 9 (s.size + 1 + 1)))).push
            (.concrete (.product (s.size + 1 + 1 + 1)
              (s.size + 1 + 1 + 1 + 1)))) := by
          refine noFin_push (noFin_push hnf6p ?_) ?_ <;>
            (intro ft h; cases h)
        have hrb8p : RB ((((((((s.push .free).push .free).push
            .free).push .free).push .free).push .free).push
            (.concrete (.product 9 (s.size + 1 + 1)))).push
            (.concrete (.product (s.size + 1 + 1 + 1)
              (s.size + 1 + 1 + 1 + 1)))) := by
          refine rb_push (rb_push hrb6p ?_) ?_ <;>
            (intro m hm;
             simp [UnificationVar.concrete, mentions, tyMentions] at hm;
             rcases hm with h | h <;> subst h <;>
               first | omega | (simp <;> omega))
        split
        next e heq => exact acok_error (err_ne (unify_no_pb hnf8p) heq)
        next u7 s7 heq =>
          obtain ⟨hsz7, hnf7, hrb7, -⟩ := unify_ok_inv heq
          have hsz7' : s7.size = s.size + 8 := by
            rw [hsz7]; simp [Array.size_push]
          split
          next e heq2 =>
            exact acok_error (err_ne (unify_no_pb (hnf7 hnf8p)) heq2)
          next u8 s8 heq2 =>
            obtain ⟨hsz8, hnf8, hrb8, -⟩ := unify_ok_inv heq2
            have hsz8' : s8.size = s.size + 8 := by rw [hsz8]; omega
            have hnf9 : NoFin (s8.push
                (.concrete (.product (s.size + 1 + 1 + 1)
                  (s.size + 1 + 1 + 1 + 1 + 1)))) := by
              refine noFin_push (hnf8 (hnf7 hnf8p)) ?_
              intro ft h; cases h
            have hrb9 : RB (s8.push
                (.concrete (.product (s.size + 1 + 1 + 1)
                  (s.size + 1 + 1 + 1 + 1 + 1)))) := by
              refine rb_push (hrb8 (hrb7 hrb8p)) ?_
              intro m hm
              simp [UnificationVar.concrete, mentions, tyMentions] at hm
              rcases hm with h | h <;> subst h <;> omega
            split
            next e heq3 => exact acok_error (err_ne (unify_no_pb hnf9) heq3)
            next u10 s10 heq3 =>
              obtain ⟨hsz10, hnf10, hrb10, -⟩ := unify_ok_inv heq3
              have hsz10' : s10.size = s.size + 9 := by
                rw [hsz10]; simp [Array.size_push]; omega
              split
              next e heq4 =>
                exact acok_error (err_ne (unify_no_pb (hnf10 hnf9)) heq4)
              next u11 s11 heq4 =>
                obtain ⟨hsz11, hnf11, hrb11, -⟩ := unify_ok_inv heq4
                split
                next e heq5 =>
                  exact acok_error
                    (err_ne (unify_no_pb (hnf11 (hnf10 hnf9))) heq5)
                next u12 s12 heq5 =>
                  obtain ⟨hsz12, hnf12, hrb12, -⟩ := unify_ok_inv heq5
                  split
                  next e heq6 =>
                    exact acok_error (err_ne
                      (unify_no_pb (hnf12 (hnf11 (hnf10 hnf9)))) heq6)
                  next u13 s13 heq6 =>
                    obtain ⟨hsz13, hnf13, hrb13, -⟩ := unify_ok_inv heq6
                    have hsz : s13.size = s.size + 9 := by omega
                    exact acok_ok (hnf13 (hnf12 (hnf11 (hnf10 hnf9))))
                      (hrb13 (hrb12 (hrb11 (hrb10 hrb9))))
                      (by omega) (by first | omega | (simp <;> omega)) (by first | omega | (simp <;> omega))
  | Witness w =>
    simp only [addConstraints, newVar, Array.size_push]
    exact acok_ok hnfB hrbB (by first | omega | (simp <;> omega)) (by first | omega | (simp <;> omega)) (by first | omega | (simp <;> omega))
  | Hidden hsh =>
    simp only [addConstraints, newVar, Array.size_push]
    exact acok_ok hnfB hrbB (by first | omega | (simp <;> omega)) (by first | omega | (simp <;> omega)) (by first | omega | (simp <;> omega))
  | Fail x y =>
    simp only [addConstraints, newVar, Array.size_push]
    exact acok_error (by intro h; cases h)
  | Ext bn =>
    simp only [addConstraints, newVar, Array.size_push]
    split
    next e heq =>
      exact acok_error (err_ne (bind_no_pb hnfB (fresh_rootLike hfrS)) heq)
    next u1 s1 heq =>
      obtain ⟨hsz1, hnf1, hrb1, hfr1⟩ := bind_ok_inv heq
      have hsz1' : s1.size = s.size + 2 := by
        rw [hsz1]; simp [Array.size_push]
      have hfrT1 : Fresh s1 (s.size + 1) :=
        hfr1 _ hfrT (by omega)
          (by intro hc; have := tfn_lt _ _ hc; omega)
      split
      next e heq2 =>
        exact acok_error
          (err_ne (bind_no_pb (hnf1 hnfB) (fresh_rootLike hfrT1)) heq2)
      next u2 s2 heq2 =>
        obtain ⟨hsz2, hnf2, hrb2, -⟩ := bind_ok_inv heq2
        have hsz2' : s2.size = s.size + 2 := by
          rw [hsz2]; omega
        refine acok_ok (hnf2 (hnf1 hnfB)) ?_ (by omega)
          (by first | omega | (simp <;> omega)) (by first | omega | (simp <;> omega))
        refine hrb2 ?_ ?_
        · refine hrb1 hrbB ?_
          intro m hm
          have := tfn_lt _ _ hm
          first | omega | (simp <;> omega)
        · intro m hm
          have := tfn_lt _ _ hm
          omega
  | Jet jt =>
    simp only [addConstraints, newVar, Array.size_push]
    split
    next e heq =>
      exact acok_error (err_ne (bind_no_pb hnfB (fresh_rootLike hfrS)) heq)
    next u1 s1 heq =>
      obtain ⟨hsz1, hnf1, hrb1, hfr1⟩ := bind_ok_inv heq
      have hsz1' : s1.size = s.size + 2 := by
        rw [hsz1]; simp [Array.size_push]
      have hfrT1 : Fresh s1 (s.size + 1) :=
        hfr1 _ hfrT (by omega)
          (by intro hc; have := tfn_lt _ _ hc; omega)
      split
      next e heq2 =>
        exact acok_error
          (err_ne (bind_no_pb (hnf1 hnfB) (fresh_rootLike hfrT1)) heq2)
      next u2 s2 heq2 =>
        obtain ⟨hsz2, hnf2, hrb2, -⟩ := bind_ok_inv heq2
        have hsz2' : s2.size = s.size + 2 := by
          rw [hsz2]; omega
        refine acok_ok (hnf2 (hnf1 hnfB)) ?_ (by omega)
          (by first | omega | (simp <;> omega)) (by first | omega | (simp <;> omega))
        refine hrb2 ?_ ?_
        · refine hrb1 hrbB ?_
          intro m hm
          have := tfn_lt _ _ hm
          first | omega | (simp <;> omega)
        · intro m hm
          have := tfn_lt _ _ hm
          omega

/-! ## The two `type_check` loops -/

/-- Invariant preservation through `type_check`'s first loop: starting
from a `Finalized`-free, in-bounds arena of size at least 12 whose
accumulated arrows point into the arena, the loop never fails with the
`PanicBind` panic, and on success the final arena is again
`Finalized`-free with every accumulated arrow in bounds. -/
theorem constraintLoop_spec {W : Type} (fuel : Nat)
    (program : Array (Term W)) :
    ∀ (nodes : List (Term W)) (rcs : Array UnificationArrow) (s : St),
    NoFin s → RB s → 12 ≤ s.size →
    (∀ (k : Nat) (a : UnificationArrow), rcs[k]? = some a →
      a.source < s.size ∧ a.target < s.size) →
    (∀ (e : Err), constraintLoop fuel program nodes rcs s = .error e →
      e ≠ .PanicBind) ∧
    (∀ (rcs' : Array UnificationArrow) (s' : St),
      constraintLoop fuel program nodes rcs s = .ok (rcs', s') →
      NoFin s' ∧
      (∀ (k : Nat) (a : UnificationArrow), rcs'[k]? = some a →
        a.source < s'.size ∧ a.target < s'.size)) := by
  intro nodes
  induction nodes with
  | nil =>
    intro rcs s hnf hrb h12 hrcs
    constructor
    · intro e hc
      simp only [constraintLoop] at hc
      cases hc
    · intro rcs' s' hc
      simp only [constraintLoop] at hc
      injection hc with hp
      injection hp with h1 h2
      subst h1
      subst h2
      exact ⟨hnf, hrcs⟩
  | cons t rest ih =>
    intro rcs s hnf hrb h12 hrcs
    have hac := addConstraints_spec fuel program rcs t s hnf hrb h12 hrcs
    cases h : addConstraints fuel program rcs t s with
    | error e =>
      constructor
      · intro e' hc
        simp only [constraintLoop, h] at hc
        injection hc with he
        exact he ▸ hac.1 e h
      · intro rcs' s' hc
        simp only [constraintLoop, h] at hc
        cases hc
    | ok p =>
      obtain ⟨arrow, s1⟩ := p
      obtain ⟨hnf1, hrb1, hsz1, has, hat⟩ := hac.2 arrow s1 h
      have hrcs1 : ∀ (k : Nat) (a : UnificationArrow),
          (rcs.push arrow)[k]? = some a →
          a.source < s1.size ∧ a.target < s1.size := by
        intro k a ha
        rw [Array.getElem?_push] at ha
        split at ha
        · cases ha
          exact ⟨has, hat⟩
        · obtain ⟨h1, h2⟩ := hrcs k a ha
          exact ⟨lt_of_lt_of_le h1 hsz1, lt_of_lt_of_le h2 hsz1⟩
      have hih := ih (rcs.push arrow) s1 hnf1 hrb1 (le_trans h12 hsz1) hrcs1
      constructor
      · intro e hc
        simp only [constraintLoop, h] at hc
        exact hih.1 e hc
      · intro rcs' s' hc
        simp only [constraintLoop, h] at hc
        exact hih.2 rcs' s' hc

/-- Invariant preservation through `type_check`'s second loop: starting
from an arena whose finalized entries are all `valid` and an accumulator
of `TypedNode`s whose stored types are all `valid`, the loop never fails
with the `PanicBind` panic (its only errors come from the panics of
array indexing, `from_var`'s fuel/occurs failures, or `EqualTo` roots),
and on success every produced `TypedNode` stores `valid` types. -/
theorem finalizeLoop_spec {W : Type} (fuel : Nat)
    (rcs : Array UnificationArrow) :
    ∀ (nodes : List (Term W)) (idx : Nat)
      (finals : Array (TypedNode W)) (s : St),
    StValid s →
    (∀ (k : Nat) (n : TypedNode W), finals[k]? = some n →
      n.source_ty.valid ∧ n.target_ty.valid) →
    (∀ (e : Err), finalizeLoop fuel rcs nodes idx finals s = .error e →
      e ≠ .PanicBind) ∧
    (∀ (out : Array (TypedNode W)) (s' : St),
      finalizeLoop fuel rcs nodes idx finals s = .ok (out, s') →
      ∀ (k : Nat) (n : TypedNode W), out[k]? = some n →
        n.source_ty.valid ∧ n.target_ty.valid) := by
  intro nodes
  induction nodes with
  | nil =>
    intro idx finals s hsv hfin
    constructor
    · intro e hc
      simp only [finalizeLoop] at hc
      cases hc
    · intro out s' hc
      simp only [finalizeLoop] at hc
      injection hc with hp
      injection hp with h1 h2
      subst h1
      exact hfin
  | cons t rest ih =>
    intro idx finals s hsv hfin
    cases hr : rcs[idx]? with
    | none =>
      constructor
      · intro e hc
        simp only [finalizeLoop, hr] at hc
        injection hc with he
        intro hcc
        rw [← he] at hcc
        cases hcc
      · intro out s' hc
        simp only [finalizeLoop, hr] at hc
        cases hc
    | some arrow =>
      cases hfv : from_var fuel arrow.source s with
      | error e =>
        have hcl := (from_var_spec fuel arrow.source s hsv).2 e hfv
        constructor
        · intro e' hc
          simp only [finalizeLoop, hr, hfv] at hc
          injection hc with he
          subst he
          rcases hcl with h | h | h | h <;> (subst h; intro hcc; cases hcc)
        · intro out s' hc
          simp only [finalizeLoop, hr, hfv] at hc
          cases hc
      | ok p =>
        obtain ⟨src_ty, s1⟩ := p
        obtain ⟨hsv1, hst1⟩ :=
          (from_var_spec fuel arrow.source s hsv).1 src_ty s1 hfv
        cases hfv2 : from_var fuel arrow.target s1 with
        | error e =>
          have hcl := (from_var_spec fuel arrow.target s1 hst1).2 e hfv2
          constructor
          · intro e' hc
            simp only [finalizeLoop, hr, hfv, hfv2] at hc
            injection hc with he
            subst he
            rcases hcl with h | h | h | h <;> (subst h; intro hcc; cases hcc)
          · intro out s' hc
            simp only [finalizeLoop, hr, hfv, hfv2] at hc
            cases hc
        | ok p2 =>
          obtain ⟨tgt_ty, s2⟩ := p2
          obtain ⟨htv, hst2⟩ :=
            (from_var_spec fuel arrow.target s1 hst1).1 tgt_ty s2 hfv2
          have hfin2 : ∀ (k : Nat) (n : TypedNode W),
              (finals.push ⟨t, src_ty, tgt_ty⟩)[k]? = some n →
              n.source_ty.valid ∧ n.target_ty.valid := by
            intro k n hn
            rw [Array.getElem?_push] at hn
            split at hn
            · cases hn
              exact ⟨hsv1, htv⟩
            · exact hfin k n hn
          have hih := ih (idx + 1) (finals.push ⟨t, src_ty, tgt_ty⟩) s2
            hst2 hfin2
          constructor
          · intro e hc
            simp only [finalizeLoop, hr, hfv, hfv2] at hc
            exact hih.1 e hc
          · intro out s' hc
            simp only [finalizeLoop, hr, hfv, hfv2] at hc
            exact hih.2 out s' hc

/-! ## Claim C9 -/

/-- C9: for every input program, `type_check` never hits the
`unreachable!` branches of `bind` (modelled as the `PanicBind` error):
`bind` is only ever invoked on variables that `find_root` has just
returned as representatives of their union-find class, and the arena
never contains a `Finalized` entry while constraints are being added, so
the panic reserved for internal invariant violations is unreachable for
every input. -/
theorem c9_bind_no_panic {W : Type} (fuel : Nat)
    (program : List (Term W)) :
    type_check fuel program ≠ .error .PanicBind := by
  intro hc
  rw [type_check] at hc
  split at hc
  · cases hc
  · cases hcl : constraintLoop fuel program.toArray program #[] initState with
    | error e =>
      simp only [hcl] at hc
      injection hc with he
      exact (constraintLoop_spec fuel program.toArray program #[] initState
        noFin_initState rb_initState (by decide)
        (by
          intro k a ha
          rw [getElem?_neg (#[] : Array UnificationArrow) k (by simp)] at ha
          cases ha)).1 e hcl he
    | ok p =>
      obtain ⟨rcs, s⟩ := p
      obtain ⟨hnfS, -⟩ := (constraintLoop_spec fuel program.toArray program
        #[] initState noFin_initState rb_initState (by decide)
        (by
          intro k a ha
          rw [getElem?_neg (#[] : Array UnificationArrow) k (by simp)] at ha
          cases ha)).2 rcs s hcl
      simp only [hcl] at hc
      cases hfl : finalizeLoop fuel rcs program 0 #[] s with
      | error e =>
        simp only [hfl] at hc
        injection hc with he
        exact (finalizeLoop_spec fuel rcs program 0 #[] s
          (noFin_stValid hnfS)
          (by
            intro k n hn
            rw [getElem?_neg (#[] : Array (TypedNode W)) k (by simp)] at hn
            cases hn)).1 e hfl he
      | ok p2 =>
        obtain ⟨finals, s'⟩ := p2
        simp only [hfl] at hc
        cases hc

/-! ## Claim C5 -/

/-- C5, amended: every finalized type produced by a successful run of
type inference satisfies the width recurrence as the source's `usize`
arithmetic computes it (`FinalType.valid`): width `0` for `Unit`,
`(1 + max)` of the children's widths for a `Sum`, and the sum of the
children's widths for a `Product`, each reduced modulo `2 ^ 64` —
recursively at every level of both the source and target type of every
typed node.  The exact (unwrapped) recurrence of the original claim
fails on programs whose widths overflow; see the counterexample. -/
theorem c5_width_invariant {W : Type} (fuel : Nat)
    (program : List (Term W)) (typed : List (TypedNode W))
    (h : type_check fuel program = .ok typed) :
    ∀ (n : TypedNode W), n ∈ typed →
      n.source_ty.valid ∧ n.target_ty.valid := by
  rw [type_check] at h
  split at h
  · injection h with he
    subst he
    intro n hn
    cases hn
  · cases hcl : constraintLoop fuel program.toArray program #[] initState with
    | error e =>
      simp only [hcl] at h
      cases h
    | ok p =>
      obtain ⟨rcs, s⟩ := p
      obtain ⟨hnfS, -⟩ := (constraintLoop_spec fuel program.toArray program
        #[] initState noFin_initState rb_initState (by decide)
        (by
          intro k a ha
          rw [getElem?_neg (#[] : Array UnificationArrow) k (by simp)] at ha
          cases ha)).2 rcs s hcl
      simp only [hcl] at h
      cases hfl : finalizeLoop fuel rcs program 0 #[] s with
      | error e =>
        simp only [hfl] at h
        cases h
      | ok p2 =>
        obtain ⟨finals, s'⟩ := p2
        simp only [hfl] at h
        injection h with he
        have hspec := (finalizeLoop_spec fuel rcs program 0 #[] s
          (noFin_stValid hnfS)
          (by
            intro k n hn
            rw [getElem?_neg (#[] : Array (TypedNode W)) k (by simp)] at hn
            cases hn)).2 finals s' hfl
        intro n hn
        rw [← he] at hn
        obtain ⟨k, hk⟩ := List.mem_iff_getElem?.mp hn
        refine hspec k n ?_
        rw [Array.getElem?_eq_getElem?_toList]
        exact hk

set_option maxRecDepth 100000 in
/-- C5, counterexample to the exact (unwrapped) recurrence of the
original claim: the 66-node width-doubling program type-checks, and the
last node's target type is a `Product` whose stored `bit_width` is `0`
(the true width `2 ^ 64` wrapped by the `usize` arithmetic), while each
child has width `2 ^ 63` — so `widthExactAtRoot` rejects it: the stored
width does not equal the sum of the children's widths. -/
theorem c5_counterexample :
    ((type_check 100 overflowProg).toOption.bind fun typed =>
        typed[65]?.map fun tn =>
          (widthExactAtRoot tn.target_ty, tn.target_ty.bit_width))
      = some (false, 0) := by decide

/-- C5, witness: applied to the one-node program `[Unit]`, whose typed
output is a single node with source and target both the unit type of
width 0. -/
theorem c5_width_invariant_witness :
    (⟨Term.Unit, unitFT, unitFT⟩ : TypedNode Unit).source_ty.valid ∧
      (⟨Term.Unit, unitFT, unitFT⟩ : TypedNode Unit).target_ty.valid :=
  c5_width_invariant 100 [Term.Unit] [⟨Term.Unit, unitFT, unitFT⟩] rfl
    ⟨Term.Unit, unitFT, unitFT⟩ (by simp)

/-! ## Structure of `from_untyped_nodes` (claim C10) -/

/-- `finalizeLoop` appends exactly one `TypedNode` per remaining input
node, in order, keeping the already-accumulated prefix intact and
storing each input term unchanged. -/
theorem finalizeLoop_nodes {W : Type} (fuel : Nat)
    (rcs : Array UnificationArrow) :
    ∀ (nodes : List (Term W)) (idx : Nat)
      (finals : Array (TypedNode W)) (s : St)
      (out : Array (TypedNode W)) (s' : St),
    finalizeLoop fuel rcs nodes idx finals s = .ok (out, s') →
    out.size = finals.size + nodes.length ∧
    (∀ (m : Nat), m < finals.size → out[m]? = finals[m]?) ∧
    (∀ (k : Nat) (t : Term W), nodes[k]? = some t →
      ∃ (tn : TypedNode W), out[finals.size + k]? = some tn ∧
        tn.node = t) := by
  intro nodes
  induction nodes with
  | nil =>
    intro idx finals s out s' h
    simp only [finalizeLoop] at h
    injection h with hp
    injection hp with h1 h2
    subst h1
    refine ⟨by simp, fun m hm => rfl, ?_⟩
    intro k t hk
    exact absurd hk (by simp)
  | cons t rest ih =>
    intro idx finals s out s' h
    simp only [finalizeLoop] at h
    cases hr : rcs[idx]? with
    | none =>
      simp only [hr] at h
      cases h
    | some arrow =>
      simp only [hr] at h
      cases hfv : from_var fuel arrow.source s with
      | error e =>
        simp only [hfv] at h
        cases h
      | ok p =>
        obtain ⟨src_ty, s1⟩ := p
        simp only [hfv] at h
        cases hfv2 : from_var fuel arrow.target s1 with
        | error e =>
          simp only [hfv2] at h
          cases h
        | ok p2 =>
          obtain ⟨tgt_ty, s2⟩ := p2
          simp only [hfv2] at h
          obtain ⟨hsize, hpre, hnodes⟩ := ih (idx + 1)
            (finals.push ⟨t, src_ty, tgt_ty⟩) s2 out s' h
          have hps : (finals.push (⟨t, src_ty, tgt_ty⟩ : TypedNode W)).size
              = finals.size + 1 := Array.size_push _ _
          refine ⟨by rw [hsize, hps]; first | omega | (simp <;> omega),
            ?_, ?_⟩
          · intro m hm
            have h1 := hpre m (by rw [hps]; omega)
            rw [h1, Array.getElem?_push, if_neg (by omega : ¬ m = finals.size)]
          · intro k tq hk
            cases k with
            | zero =>
              simp only [List.getElem?_cons_zero] at hk
              injection hk with ht
              refine ⟨⟨t, src_ty, tgt_ty⟩, ?_, by rw [← ht]⟩
              have h1 := hpre finals.size (by rw [hps]; omega)
              rw [Nat.add_zero, h1, Array.getElem?_push, if_pos rfl]
            | succ k' =>
              simp only [List.getElem?_cons_succ] at hk
              obtain ⟨tn, htn, hnode⟩ := hnodes k' tq hk
              have hidx :
                  (finals.push (⟨t, src_ty, tgt_ty⟩ : TypedNode W)).size + k'
                    = finals.size + (k' + 1) := by rw [hps]; omega
              rw [hidx] at htn
              exact ⟨tn, htn, hnode⟩

/-- A successful `type_check` run returns one `TypedNode` per input
term, in order, storing each input term unchanged. -/
theorem type_check_nodes {W : Type} (fuel : Nat)
    (program : List (Term W)) (typed : List (TypedNode W))
    (h : type_check fuel program = .ok typed) :
    typed.length = program.length ∧
    (∀ (k : Nat) (t : Term W), program[k]? = some t →
      ∃ (tn : TypedNode W), typed[k]? = some tn ∧ tn.node = t) := by
  rw [type_check] at h
  split at h
  · next hempty =>
    injection h with he
    subst he
    have hnil : program = [] := List.isEmpty_iff.mp hempty
    subst hnil
    exact ⟨rfl, by intro k t hk; exact absurd hk (by simp)⟩
  · cases hcl : constraintLoop fuel program.toArray program #[] initState with
    | error e =>
      simp only [hcl] at h
      cases h
    | ok p =>
      obtain ⟨rcs, s⟩ := p
      simp only [hcl] at h
      cases hfl : finalizeLoop fuel rcs program 0 #[] s with
      | error e =>
        simp only [hfl] at h
        cases h
      | ok p2 =>
        obtain ⟨finals, s'⟩ := p2
        simp only [hfl] at h
        injection h with he
        subst he
        obtain ⟨hsize, -, hnodes⟩ :=
          finalizeLoop_nodes fuel rcs program 0 #[] s finals s' hfl
        have h0 : ((#[] : Array (TypedNode W))).size = 0 := rfl
        constructor
        · rw [Array.length_toList, hsize, h0, Nat.zero_add]
        · intro k t hk
          obtain ⟨tn, htn, hnode⟩ := hnodes k t hk
          rw [h0, Nat.zero_add, Array.getElem?_eq_getElem?_toList] at htn
          exact ⟨tn, htn, hnode⟩

/-- The witness-reading pass preserves the shape of each term (replacing
only a `Witness` payload) and leaves the inferred types untouched. -/
theorem readWitnessNode_shape {node : Term Unit} {ty : FinalType}
    {bits : List Bool} {node' : Term Value} {bits' : List Bool}
    (h : readWitnessNode node ty bits = .ok (node', bits')) :
    sameShape node node' := by
  cases node <;> simp only [readWitnessNode] at h
  case Witness w =>
    cases hfb : from_bits_and_type bits ty with
    | error e =>
      simp only [hfb] at h
      cases h
    | ok p =>
      obtain ⟨v, b2⟩ := p
      simp only [hfb] at h
      injection h with hp
      injection hp with h1 h2
      subst h1
      simp [sameShape]
  all_goals
    injection h with hp
  all_goals
    injection hp with h1 h2
  all_goals
    subst h1
  all_goals
    simp [sameShape]

/-- The witness-reading pass over the whole program: one output node per
input node, in order, with the same shape and the same types. -/
theorem readWitnessData_spec :
    ∀ (typed : List (TypedNode Unit)) (bits : List Bool)
      (typedV : List (TypedNode Value)) (bits2 : List Bool),
    readWitnessData typed bits = .ok (typedV, bits2) →
    typedV.length = typed.length ∧
    (∀ (k : Nat) (tu : TypedNode Unit), typed[k]? = some tu →
      ∃ (tv : TypedNode Value), typedV[k]? = some tv ∧
        sameShape tu.node tv.node ∧ tv.source_ty = tu.source_ty ∧
        tv.target_ty = tu.target_ty) := by
  intro typed
  induction typed with
  | nil =>
    intro bits typedV bits2 h
    simp only [readWitnessData] at h
    injection h with hp
    injection hp with h1 h2
    subst h1
    exact ⟨rfl, by intro k tu hk; exact absurd hk (by simp)⟩
  | cons tu rest ih =>
    intro bits typedV bits2 h
    simp only [readWitnessData] at h
    cases hrn : readWitnessNode tu.node tu.target_ty bits with
    | error e =>
      simp only [hrn] at h
      cases h
    | ok p =>
      obtain ⟨node', bits1⟩ := p
      simp only [hrn] at h
      cases hrd : readWitnessData rest bits1 with
      | error e =>
        simp only [hrd] at h
        cases h
      | ok p2 =>
        obtain ⟨rest', bits3⟩ := p2
        simp only [hrd] at h
        injection h with hp
        injection hp with h1 h2
        subst h1
        obtain ⟨hlen, hmem⟩ := ih bits1 rest' bits3 hrd
        constructor
        · simp [hlen]
        · intro k tq hk
          cases k with
          | zero =>
            simp only [List.getElem?_cons_zero] at hk
            injection hk with ht
            rw [← ht]
            exact ⟨⟨node', tu.source_ty, tu.target_ty⟩,
              List.getElem?_cons_zero, readWitnessNode_shape hrn, rfl, rfl⟩
          | succ k' =>
            simp only [List.getElem?_cons_succ] at hk
            obtain ⟨tv, htv, hsh, hs, htg⟩ := hmem k' tq hk
            refine ⟨tv, ?_, hsh, hs, htg⟩
            rw [List.getElem?_cons_succ]
            exact htv

/-- If `out` agrees with `pre` on all of `pre`'s indices then the
length-`pre.size` prefix of `out` is `pre` itself. -/
theorem take_toArray_agree {α : Type} {out pre : Array α}
    (hle : pre.size ≤ out.size)
    (hag : ∀ (m : Nat), m < pre.size → out[m]? = pre[m]?) :
    (out.toList.take pre.size).toArray = pre := by
  have hl : out.toList.take pre.size = pre.toList := by
    apply List.ext_getElem?
    intro m
    by_cases hm : m < pre.size
    · rw [List.getElem?_take_of_lt hm, ← Array.getElem?_eq_getElem?_toList,
        ← Array.getElem?_eq_getElem?_toList]
      exact hag m hm
    · rw [getElem?_neg (out.toList.take pre.size) m (by
          rw [List.length_take, Array.length_toList]
          omega),
        getElem?_neg pre.toList m (by
          rw [Array.length_toList]
          omega)]
  rw [hl, Array.toArray_toList]

/-- The assembly loop of `from_untyped_nodes`: one `ProgramNode` per
typed node, in order, with `index` equal to the node's position, the
term and types copied unchanged, and the `cmr`, `extra_cells_bound` and
`frame_count_bound` fields computed by running the node's computation
against the strict prefix of previously finished nodes only. -/
theorem assembleLoop_spec :
    ∀ (tns : List (TypedNode Value)) (ret : Array ProgramNode)
      (out : Array ProgramNode),
    assembleLoop tns ret.size ret = .ok out →
    out.size = ret.size + tns.length ∧
    (∀ (m : Nat), m < ret.size → out[m]? = ret[m]?) ∧
    (∀ (k : Nat) (tv : TypedNode Value), tns[k]? = some tv →
      ∃ (pn : ProgramNode), out[ret.size + k]? = some pn ∧
        pn.node = tv.node ∧ pn.index = ret.size + k ∧
        pn.source_ty = tv.source_ty ∧ pn.target_ty = tv.target_ty ∧
        compute_cmr ((out.toList.take (ret.size + k)).toArray) tv.node
          (ret.size + k) = .ok pn.cmr ∧
        compute_extra_cells_bound ((out.toList.take (ret.size + k)).toArray)
          tv.node (ret.size + k) tv.target_ty.bit_width =
            .ok pn.extra_cells_bound ∧
        compute_frame_count_bound ((out.toList.take (ret.size + k)).toArray)
          tv.node (ret.size + k) = .ok pn.frame_count_bound) := by
  intro tns
  induction tns with
  | nil =>
    intro ret out h
    simp only [assembleLoop] at h
    injection h with he
    subst he
    refine ⟨by simp, fun m hm => rfl, ?_⟩
    intro k tv hk
    exact absurd hk (by simp)
  | cons tn rest ih =>
    intro ret out h
    simp only [assembleLoop] at h
    cases hcmr : compute_cmr ret tn.node ret.size with
    | error e =>
      simp only [hcmr] at h
      cases h
    | ok cmr =>
      simp only [hcmr] at h
      cases hcell : compute_extra_cells_bound ret tn.node ret.size
          tn.target_ty.bit_width with
      | error e =>
        simp only [hcell] at h
        cases h
      | ok cells =>
        simp only [hcell] at h
        cases hfrm : compute_frame_count_bound ret tn.node ret.size with
        | error e =>
          simp only [hfrm] at h
          cases h
        | ok frames =>
          simp only [hfrm] at h
          have hps : (ret.push (⟨tn.node, ret.size, cmr, tn.source_ty,
              tn.target_ty, cells, frames⟩ : ProgramNode)).size
              = ret.size + 1 := Array.size_push _ _
          have h' : assembleLoop rest
              (ret.push (⟨tn.node, ret.size, cmr, tn.source_ty,
                tn.target_ty, cells, frames⟩ : ProgramNode)).size
              (ret.push ⟨tn.node, ret.size, cmr, tn.source_ty,
                tn.target_ty, cells, frames⟩) = .ok out := by
            rw [hps]
            exact h
          obtain ⟨hsize, hpre, hnodes⟩ := ih
            (ret.push ⟨tn.node, ret.size, cmr, tn.source_ty,
              tn.target_ty, cells, frames⟩) out h'
          have hpre' : ∀ (m : Nat), m < ret.size → out[m]? = ret[m]? := by
            intro m hm
            have h1 := hpre m (by rw [hps]; omega)
            rw [h1, Array.getElem?_push, if_neg (by omega : ¬ m = ret.size)]
          have hprefix : (out.toList.take ret.size).toArray = ret := by
            refine take_toArray_agree ?_ hpre'
            rw [hsize, hps]
            omega
          refine ⟨by rw [hsize, hps]; first | omega | (simp <;> omega),
            hpre', ?_⟩
          intro k tv hk
          cases k with
          | zero =>
            simp only [List.getElem?_cons_zero] at hk
            injection hk with ht
            rw [← ht]
            refine ⟨⟨tn.node, ret.size, cmr, tn.source_ty,
              tn.target_ty, cells, frames⟩, ?_, rfl,
              by rw [Nat.add_zero], rfl, rfl, ?_, ?_, ?_⟩
            · have h1 := hpre ret.size (by rw [hps]; omega)
              rw [Nat.add_zero, h1, Array.getElem?_push, if_pos rfl]
            · rw [Nat.add_zero, hprefix]
              exact hcmr
            · rw [Nat.add_zero, hprefix]
              exact hcell
            · rw [Nat.add_zero, hprefix]
              exact hfrm
          | succ k' =>
            simp only [List.getElem?_cons_succ] at hk
            obtain ⟨pn, hpn, hn1, hn2, hn3, hn4, hn5, hn6, hn7⟩ :=
              hnodes k' tv hk
            have hidx : (ret.push (⟨tn.node, ret.size, cmr, tn.source_ty,
                tn.target_ty, cells, frames⟩ : ProgramNode)).size + k'
                  = ret.size + (k' + 1) := by rw [hps]; omega
            rw [hidx] at hpn hn2 hn5 hn6 hn7
            exact ⟨pn, hpn, hn1, hn2, hn3, hn4, hn5, hn6, hn7⟩

/-! ## Claim C10 -/

/-- C10: a successful `from_untyped_nodes` run returns exactly one
`ProgramNode` per input term, in input order: the node at position `k`
has its `index` field equal to `k`, the same term shape as input term
`k` (only a `Witness` payload is replaced, by its decoded value), and
its `cmr`, `extra_cells_bound` and `frame_count_bound` fields are
reproduced exactly by running the corresponding computation against the
strict prefix of the first `k` finished nodes only. -/
theorem c10_program_structure (fuel : Nat) (nodes : List (Term Unit))
    (iter : List Bool) (prog : List ProgramNode) (rest : List Bool)
    (h : from_untyped_nodes fuel nodes iter = .ok (prog, rest)) :
    prog.length = nodes.length ∧
    ∀ (k : Nat) (t : Term Unit), nodes[k]? = some t →
      ∃ (pn : ProgramNode), prog[k]? = some pn ∧
        pn.index = k ∧ sameShape t pn.node ∧
        compute_cmr ((prog.take k).toArray) pn.node k = .ok pn.cmr ∧
        compute_extra_cells_bound ((prog.take k).toArray) pn.node k
          pn.target_ty.bit_width = .ok pn.extra_cells_bound ∧
        compute_frame_count_bound ((prog.take k).toArray) pn.node k =
          .ok pn.frame_count_bound := by
  rw [from_untyped_nodes.eq_def] at h
  cases htc : type_check fuel nodes with
  | error e =>
    simp only [htc] at h
    cases h
  | ok typed =>
    simp only [htc] at h
    obtain ⟨hlen1, hnodes1⟩ := type_check_nodes fuel nodes typed htc
    split at h
    · cases h
    · next wl iter1 heq =>
      split at h
      · cases h
      · next typedV iter2 heq2 =>
        split at h
        · cases h
        · next ret heq3 =>
          injection h with hp
          injection hp with h1 h2
          subst h1
          obtain ⟨hlen2, hmem2⟩ :=
            readWitnessData_spec typed iter1 typedV iter2 heq2
          obtain ⟨hsz3, -, hmem3⟩ := assembleLoop_spec typedV #[] ret heq3
          have h0 : ((#[] : Array ProgramNode)).size = 0 := rfl
          constructor
          · rw [Array.length_toList, hsz3, h0, Nat.zero_add, hlen2, hlen1]
          · intro k t hk
            obtain ⟨tn, htn, hnode⟩ := hnodes1 k t hk
            obtain ⟨tv, htv, hsh, hs, htg⟩ := hmem2 k tn htn
            obtain ⟨pn, hpn, hn1, hn2, hn3, hn4, hn5, hn6, hn7⟩ :=
              hmem3 k tv htv
            rw [h0, Nat.zero_add] at hpn hn2 hn5 hn6 hn7
            rw [Array.getElem?_eq_getElem?_toList] at hpn
            refine ⟨pn, hpn, hn2, ?_, ?_, ?_, ?_⟩
            · rw [hnode] at hsh
              rw [hn1]
              exact hsh
            · rw [hn1]
              exact hn5
            · rw [hn1, hn4]
              exact hn6
            · rw [hn1]
              exact hn7

/-- C10, witness: applied to the one-node program `[Unit]` with bit
stream `[false]` (empty witness block), instantiated at position 0. -/
theorem c10_program_structure_witness :
    ∃ (pn : ProgramNode),
      ([⟨Term.Unit, 0, Cmr.tag_unit, unitFT, unitFT, 0, 0⟩] :
        List ProgramNode)[0]? = some pn ∧
      pn.index = 0 ∧ sameShape Term.Unit pn.node ∧
      compute_cmr ((([⟨Term.Unit, 0, Cmr.tag_unit, unitFT, unitFT, 0, 0⟩] :
        List ProgramNode).take 0).toArray) pn.node 0 = .ok pn.cmr ∧
      compute_extra_cells_bound
        ((([⟨Term.Unit, 0, Cmr.tag_unit, unitFT, unitFT, 0, 0⟩] :
          List ProgramNode).take 0).toArray) pn.node 0
        pn.target_ty.bit_width = .ok pn.extra_cells_bound ∧
      compute_frame_count_bound
        ((([⟨Term.Unit, 0, Cmr.tag_unit, unitFT, unitFT, 0, 0⟩] :
          List ProgramNode).take 0).toArray) pn.node 0 =
        .ok pn.frame_count_bound :=
  (c10_program_structure 100 [Term.Unit] [false]
    [⟨Term.Unit, 0, Cmr.tag_unit, unitFT, unitFT, 0, 0⟩] [] rfl).2
    0 Term.Unit rfl

end Simplicity
